import Mathlib

/-!
Verification of the llama33 tool parser (`tool_plugin.py`) and the reasoning
stream tracker.  Text is modelled as `List Char` (Python `str`); the Python
`json` module is modelled by an executable parser/printer over a syntax tree
whose numbers keep their literal spelling (float semantics is out of scope, and
the non-standard `NaN`/`Infinity` literals are not modelled); exceptions are
modelled with `Except` where the code can raise.
-/

namespace ToolPlugin

/-- Text is a list of characters, as Python strings are sequences of code points. -/
abbrev Str := List Char

def lbrace : Char := '\x7b'

def rbrace : Char := '\x7d'

def apos : Char := '\x27'

def bslash : Char := '\\'

/-- Whitespace for Python `str.strip` and `re`'s `\s` (ASCII plus the common
Unicode whitespace code points). -/
def pyIsSpace (c : Char) : Bool :=
  c = ' ' || c = '\t' || c = '\n' || c = '\r' || c = '\x0b' || c = '\x0c' ||
  c = '\x1c' || c = '\x1d' || c = '\x1e' || c = '\x1f' || c = '\x85' || c = '\xa0' ||
  c = '\u1680' || (('\u2000' ≤ c) && (c ≤ '\u200a')) || c = '\u2028' || c = '\u2029' ||
  c = '\u202f' || c = '\u205f' || c = '\u3000'

/-- Python `str.strip()`. -/
def pyStrip (s : Str) : Str :=
  ((s.dropWhile pyIsSpace).reverse.dropWhile pyIsSpace).reverse

/-- Does `s` begin with `pat`? -/
def begins : Str → Str → Bool
  | _, [] => true
  | [], _ :: _ => false
  | c :: cs, d :: ds => c = d && begins cs ds

/-- Index of the first occurrence of `pat` in `hay` from offset `i`
(Python `str.find` / `str.index`, which also report 0 for an empty pattern). -/
def findSubAux (pat : Str) : Str → Nat → Option Nat
  | hay, i =>
    if begins hay pat then some i
    else
      match hay with
      | [] => none
      | _ :: rest => findSubAux pat rest (i + 1)

def findSub (hay pat : Str) : Option Nat := findSubAux pat hay 0

/-- Python's `in` operator on strings. -/
def hasSub (hay pat : Str) : Bool := (findSub hay pat).isSome

/-- Python slice `s[a:b]` for `0 ≤ a, b`. -/
def pySlice (a b : Nat) (s : Str) : Str := (s.take b).drop a

/-- Python slice `s[a:]`. -/
def pySliceFrom (a : Nat) (s : Str) : Str := s.drop a

-- ### The JSON data model (`json.loads` results: dict / list / str / number / bool / None)

mutual

inductive Json where
  | null : Json
  | bool (b : Bool) : Json
  | num (lit : Str) : Json
  | str (s : Str) : Json
  | arr (elems : JsonList) : Json
  | obj (fields : JsonObj) : Json

inductive JsonList where
  | nil : JsonList
  | cons (hd : Json) (tl : JsonList) : JsonList

inductive JsonObj where
  | nil : JsonObj
  | cons (key : Str) (val : Json) (tl : JsonObj) : JsonObj

end

deriving instance DecidableEq for Json

/-- Key membership in a parsed object (Python `k in d`). -/
def JsonObj.hasKey (k : Str) : JsonObj → Bool
  | .nil => false
  | .cons k' _ tl => k = k' || tl.hasKey k

/-- Lookup in a parsed object (Python `d[k]`, assuming the key is present). -/
def JsonObj.get (k : Str) : JsonObj → Option Json
  | .nil => none
  | .cons k' v tl => if k = k' then some v else tl.get k

/-- Python dict assignment `d[k] = v`: an existing key keeps its position and
takes the new value; a fresh key is appended. -/
def JsonObj.setKey (k : Str) (v : Json) : JsonObj → JsonObj
  | .nil => .cons k v .nil
  | .cons k' v' tl => if k = k' then .cons k' v tl else .cons k' v' (tl.setKey k v)

-- ### `json.loads`

/-- JSON's own whitespace (RFC 8259): space, tab, newline, carriage return. -/
def jsonIsWs (c : Char) : Bool :=
  c = ' ' || c = '\t' || c = '\n' || c = '\r'

def isDigit (c : Char) : Bool := '0' ≤ c && c ≤ '9'

def hexVal (c : Char) : Option Nat :=
  let n := c.toNat
  if 48 ≤ n ∧ n ≤ 57 then some (n - 48)
  else if 97 ≤ n ∧ n ≤ 102 then some (n - 87)
  else if 65 ≤ n ∧ n ≤ 70 then some (n - 55)
  else none

/-- The number token of Python's `json` module:
`-?(0|[1-9][0-9]*)([.][0-9]+)?([eE][-+]?[0-9]+)?`, maximal munch.  The matched
literal is kept as written. -/
def numFracPart (s : Str) : Str × Str :=
  match s with
  | c :: rest =>
      if c = '.' then
        let ds := rest.takeWhile isDigit
        if ds = [] then ([], s) else (c :: ds, rest.dropWhile isDigit)
      else ([], s)
  | [] => ([], s)

def numExpPart (s : Str) : Str × Str :=
  match s with
  | c :: rest =>
      if c = 'e' || c = 'E' then
        match rest with
        | d :: rest2 =>
            if d = '+' || d = '-' then
              let ds := rest2.takeWhile isDigit
              if ds = [] then ([], s) else (c :: d :: ds, rest2.dropWhile isDigit)
            else
              let ds := rest.takeWhile isDigit
              if ds = [] then ([], s) else (c :: ds, rest.dropWhile isDigit)
        | [] => ([], s)
      else ([], s)
  | [] => ([], s)

/-- The integer-and-onward part after the optional sign. -/
def numBody (s1 : Str) : Option (Str × Str) :=
  match s1 with
  | c :: rest =>
      if c = '0' then
        let (frac, s2) := numFracPart rest
        let (ex, s3) := numExpPart s2
        some (c :: (frac ++ ex), s3)
      else if isDigit c then
        let ds := rest.takeWhile isDigit
        let s2 := rest.dropWhile isDigit
        let (frac, s3) := numFracPart s2
        let (ex, s4) := numExpPart s3
        some (c :: (ds ++ frac ++ ex), s4)
      else none
  | [] => none

def parseNumberToken (s : Str) : Option (Str × Str) :=
  match s with
  | c :: rest =>
      if c = '-' then
        match numBody rest with
        | some (lit, r) => some (c :: lit, r)
        | none => none
      else
        match numBody s with
        | some (lit, r) => some (lit, r)
        | none => none
  | [] => none

/-- String body parser, positioned after the opening quote.  Returns the decoded
content and the input after the closing quote.  Surrogate pairs written as two
`\uXXXX` escapes are recombined as Python does; a lone surrogate (which Python
would keep, but which no Lean `Char` can carry) degrades to `Char.ofNat`'s
default, an edge no claim touches. -/
def consFst (c : Char) : Option (Str × Str) → Option (Str × Str)
  | some (content, rest) => some (c :: content, rest)
  | none => none

/-- The simple escape table of JSON strings. -/
def simpleEscape (e : Char) : Option Char :=
  if e = '"' then some '"'
  else if e = '\\' then some '\\'
  else if e = '/' then some '/'
  else if e = 'b' then some '\x08'
  else if e = 'f' then some '\x0c'
  else if e = 'n' then some '\n'
  else if e = 'r' then some '\r'
  else if e = 't' then some '\t'
  else none

/-- Reads a `\uXXXX` escape carrying a low surrogate, for recombination with a
preceding high surrogate. -/
def lowSurrogate : Str → Option (Nat × Str)
  | '\\' :: 'u' :: a :: b :: c :: d :: rest =>
      match hexVal a, hexVal b, hexVal c, hexVal d with
      | some x, some y, some z, some w =>
          let m := ((x * 16 + y) * 16 + z) * 16 + w
          if 0xdc00 ≤ m && m < 0xe000 then some (m, rest) else none
      | _, _, _, _ => none
  | _ => none

theorem lowSurrogate_length {s : Str} {m : Nat} {r : Str}
    (h : lowSurrogate s = some (m, r)) : r.length + 6 = s.length := by
  unfold lowSurrogate at h
  split at h
  · split at h
    · dsimp only at h
      split at h
      · simp only [Option.some.injEq, Prod.mk.injEq] at h
        simp [← h.2]
      · simp at h
    · simp at h
  · simp at h

/-- String body scanner, fuelled for kernel reducibility: one unit per decoded
character, so any fuel beyond the input length is ample. -/
def parseStringBodyAux : Nat → Str → Option (Str × Str)
  | 0, _ => none
  | _ + 1, [] => none
  | fuel + 1, c0 :: rest =>
      if c0 = '"' then some ([], rest)
      else if c0 = '\\' then
        match rest with
        | [] => none
        | e :: rest1 =>
            if e = 'u' then
              match rest1 with
              | a :: b :: c :: d :: rest2 =>
                  match hexVal a, hexVal b, hexVal c, hexVal d with
                  | some x, some y, some z, some w =>
                      let n := ((x * 16 + y) * 16 + z) * 16 + w
                      if 0xd800 ≤ n && n < 0xdc00 then
                        match lowSurrogate rest2 with
                        | some (m, rest3) =>
                            consFst (Char.ofNat (0x10000 + (n - 0xd800) * 0x400 + (m - 0xdc00)))
                              (parseStringBodyAux fuel rest3)
                        | none => consFst (Char.ofNat n) (parseStringBodyAux fuel rest2)
                      else consFst (Char.ofNat n) (parseStringBodyAux fuel rest2)
                  | _, _, _, _ => none
              | _ => none
            else
              match simpleEscape e with
              | some c => consFst c (parseStringBodyAux fuel rest1)
              | none => none
      else if c0.toNat < 0x20 then none
      else consFst c0 (parseStringBodyAux fuel rest)

def parseStringBody (s : Str) : Option (Str × Str) :=
  parseStringBodyAux (s.length + 1) s

/-- Python dict construction from the fields in document order: each field is
assigned in turn, so a repeated key takes the later value at the earlier
position. -/
def objInsertAll (acc : JsonObj) : JsonObj → JsonObj
  | .nil => acc
  | .cons k v tl => objInsertAll (acc.setKey k v) tl

-- The recursive JSON value grammar, fuelled: every recursive call spends one
-- unit, and the top entry `loads` supplies ample fuel for its input length, so
-- the fuel never shapes the observable behavior.
mutual

def parseValue : Nat → Str → Option (Json × Str)
  | 0, _ => none
  | fuel + 1, s =>
    match s.dropWhile jsonIsWs with
    | [] => none
    | c :: rest =>
        if c = '"' then
          match parseStringBody rest with
          | some (content, rest') => some (.str content, rest')
          | none => none
        else if c = lbrace then parseObjFields fuel rest
        else if c = '[' then parseArrElems fuel rest
        else if c = 't' then
          if begins rest "rue".toList then some (.bool true, rest.drop 3) else none
        else if c = 'f' then
          if begins rest "alse".toList then some (.bool false, rest.drop 4) else none
        else if c = 'n' then
          if begins rest "ull".toList then some (.null, rest.drop 3) else none
        else
          match parseNumberToken (c :: rest) with
          | some (lit, rest') => some (.num lit, rest')
          | none => none

/-- Object fields, positioned just after the opening brace. -/
def parseObjFields : Nat → Str → Option (Json × Str)
  | 0, _ => none
  | fuel + 1, s =>
    match s.dropWhile jsonIsWs with
    | c :: rest =>
        if c = rbrace then some (.obj .nil, rest)
        else if c = '"' then
          match parseObjLoop fuel (c :: rest) with
          | some (fields, rest') => some (.obj (objInsertAll .nil fields), rest')
          | none => none
        else none
    | [] => none

/-- One field then either a closing brace or a comma and more fields; yields
the fields in document order, duplicates included. -/
def parseObjLoop : Nat → Str → Option (JsonObj × Str)
  | 0, _ => none
  | fuel + 1, s =>
    match s.dropWhile jsonIsWs with
    | '"' :: rest =>
        match parseStringBody rest with
        | some (key, rest1) =>
            match rest1.dropWhile jsonIsWs with
            | ':' :: rest2 =>
                match parseValue fuel rest2 with
                | some (v, rest3) =>
                    match rest3.dropWhile jsonIsWs with
                    | c :: rest4 =>
                        if c = rbrace then some (.cons key v .nil, rest4)
                        else if c = ',' then
                          match parseObjLoop fuel rest4 with
                          | some (tl, rest') => some (.cons key v tl, rest')
                          | none => none
                        else none
                    | [] => none
                | none => none
            | _ => none
        | none => none
    | _ => none

/-- Array elements, positioned just after the opening bracket. -/
def parseArrElems : Nat → Str → Option (Json × Str)
  | 0, _ => none
  | fuel + 1, s =>
    match s.dropWhile jsonIsWs with
    | c :: rest =>
        if c = ']' then some (.arr .nil, rest)
        else
          match parseArrLoop fuel (c :: rest) with
          | some (elems, rest') => some (.arr elems, rest')
          | none => none
    | [] => none

def parseArrLoop : Nat → Str → Option (JsonList × Str)
  | 0, _ => none
  | fuel + 1, s =>
      match parseValue fuel s with
      | some (v, rest) =>
          match rest.dropWhile jsonIsWs with
          | c :: rest2 =>
              if c = ']' then some (.cons v .nil, rest2)
              else if c = ',' then
                match parseArrLoop fuel rest2 with
                | some (tl, rest') => some (.cons v tl, rest')
                | none => none
              else none
          | [] => none
      | none => none

end

/-- `json.loads`: optional surrounding whitespace around exactly one value;
anything left over is the "Extra data" error. -/
def loads (s : Str) : Option Json :=
  match parseValue (2 * s.length + 8) s with
  | some (v, rest) => if rest.dropWhile jsonIsWs = [] then some v else none
  | none => none

-- ### `json.dumps` (default separators, `ensure_ascii=True`)

def toHexDigit (n : Nat) : Char :=
  if n < 10 then Char.ofNat ('0'.toNat + n) else Char.ofNat ('a'.toNat + n - 10)

def hex4 (n : Nat) : Str :=
  [toHexDigit (n / 0x1000 % 0x10), toHexDigit (n / 0x100 % 0x10),
   toHexDigit (n / 0x10 % 0x10), toHexDigit (n % 0x10)]

/-- How `json.dumps` writes one character of a string: printable ASCII raw,
everything else escaped, non-BMP code points as a surrogate pair. -/
def escapeChar (c : Char) : Str :=
  if c = '"' then ['\\', '"']
  else if c = '\\' then ['\\', '\\']
  else if c = '\n' then ['\\', 'n']
  else if c = '\r' then ['\\', 'r']
  else if c = '\t' then ['\\', 't']
  else if c = '\x08' then ['\\', 'b']
  else if c = '\x0c' then ['\\', 'f']
  else if 0x20 ≤ c.toNat && c.toNat ≤ 0x7e then [c]
  else if c.toNat < 0x10000 then '\\' :: 'u' :: hex4 c.toNat
  else
    '\\' :: 'u' :: hex4 (0xd800 + (c.toNat - 0x10000) / 0x400) ++
      ('\\' :: 'u' :: hex4 (0xdc00 + (c.toNat - 0x10000) % 0x400))

def escapeStr : Str → Str
  | [] => []
  | c :: rest => escapeChar c ++ escapeStr rest

def dumpsStr (s : Str) : Str := '"' :: escapeStr s ++ ['"']

mutual

def dumpsVal : Json → Str
  | .null => 'n' :: "ull".toList
  | .bool true => 't' :: "rue".toList
  | .bool false => 'f' :: "alse".toList
  | .num lit => lit
  | .str s => dumpsStr s
  | .arr .nil => ['[', ']']
  | .arr (.cons v tl) => '[' :: (dumpsVal v ++ dumpsElems tl)
  | .obj .nil => [lbrace, rbrace]
  | .obj (.cons k v tl) =>
      lbrace :: (dumpsStr k ++ ':' :: ' ' :: (dumpsVal v ++ dumpsFields tl))

def dumpsElems : JsonList → Str
  | .nil => [']']
  | .cons v tl => ',' :: ' ' :: (dumpsVal v ++ dumpsElems tl)

def dumpsFields : JsonObj → Str
  | .nil => [rbrace]
  | .cons k v tl => ',' :: ' ' :: (dumpsStr k ++ ':' :: ' ' :: (dumpsVal v ++ dumpsFields tl))

end

-- ### Models of the specific `re` operations the plugin performs

theorem dropWhileLenLe (p : Char → Bool) (l : Str) : (l.dropWhile p).length ≤ l.length := by
  induction l with
  | nil => simp [List.dropWhile]
  | cons c rest ih =>
      by_cases h : p c <;> simp [List.dropWhile, h] <;> omega

/-- The text after the first newline, if any. -/
def dropPastNewline : Str → Option Str
  | [] => none
  | c :: rest => if c = '\n' then some rest else dropPastNewline rest

theorem dropPastNewline_length {s r : Str} (h : dropPastNewline s = some r) :
    r.length < s.length := by
  induction s with
  | nil => simp [dropPastNewline] at h
  | cons c rest ih =>
      rw [dropPastNewline] at h
      split at h
      · simp only [Option.some.injEq] at h; simp [← h]
      · have := ih h; simp; omega

/-- `re.sub(r"//.*?\n", "", s)`: each match runs from a `//` to the nearest
following newline, inclusive. -/
def removeCommentsAux : Nat → Str → Str
  | 0, s => s
  | _ + 1, [] => []
  | fuel + 1, c :: rest =>
      if begins (c :: rest) ['/', '/'] then
        match dropPastNewline (rest.drop 1) with
        | some rest' => removeCommentsAux fuel rest'
        | none => c :: rest
      else c :: removeCommentsAux fuel rest

def removeComments (s : Str) : Str := removeCommentsAux (s.length + 1) s

/-- `re.sub(r",\s*(?=[}\]])", "", s)`: a comma and the whitespace after it are
dropped when the next non-whitespace character is a closing brace or bracket
(kept, as the lookahead does not consume). -/
def removeTrailingCommasAux : Nat → Str → Str
  | 0, s => s
  | _ + 1, [] => []
  | fuel + 1, c0 :: rest =>
      if c0 = ',' then
        match rest.dropWhile pyIsSpace with
        | c :: after =>
            if c = rbrace || c = ']' then removeTrailingCommasAux fuel (c :: after)
            else c0 :: (rest.takeWhile pyIsSpace ++ removeTrailingCommasAux fuel (c :: after))
        | [] => c0 :: rest
      else c0 :: removeTrailingCommasAux fuel rest

def removeTrailingCommas (s : Str) : Str := removeTrailingCommasAux (s.length + 1) s

/-- `re.sub(r"^\s*```(?:json)?", "", s, flags=re.IGNORECASE)`: leading
whitespace, a fence, and an optional case-insensitive tag are removed when
anchored at the very start. -/
def stripLeadFence (s : Str) : Str :=
  let r := s.dropWhile pyIsSpace
  if begins r ['`', '`', '`'] then
    let r2 := r.drop 3
    if (r2.take 4).map Char.toLower = ['j', 's', 'o', 'n'] then r2.drop 4 else r2
  else s

/-- `re.sub(r"```\s*$", "", s, flags=re.IGNORECASE)`: the leftmost fence that is
followed by nothing but whitespace is removed together with everything after
it. -/
def stripTrailFence : Str → Str
  | [] => []
  | c :: rest =>
      if begins (c :: rest) "```".toList && ((c :: rest).drop 3).all pyIsSpace
      then []
      else c :: stripTrailFence rest

/-- The lazy scan shared by every `(.*?)` in the plugin's patterns: content up
to the first occurrence of `stop`; without `re.DOTALL` (`nlOk = false`) a
newline in the content kills the match. -/
def scanUntil (nlOk : Bool) (stop : Str) : Str → Option (Str × Str)
  | [] => none
  | c :: rest =>
      if begins (c :: rest) stop then some ([], (c :: rest).drop stop.length)
      else if !nlOk && c = '\n' then none
      else consFst c (scanUntil nlOk stop rest)

theorem scanUntil_length {nlOk : Bool} {stop s g r : Str} (hstop : stop ≠ [])
    (h : scanUntil nlOk stop s = some (g, r)) : r.length < s.length := by
  induction s generalizing g r with
  | nil => simp [scanUntil] at h
  | cons c rest ih =>
      rw [scanUntil] at h
      split at h
      · simp only [Option.some.injEq, Prod.mk.injEq] at h
        have : 1 ≤ stop.length := by
          cases stop with
          | nil => simp at hstop
          | cons a tl => simp
        rw [← h.2]
        simp [List.length_drop]
        omega
      · split at h
        · simp at h
        · match h2 : scanUntil nlOk stop rest with
          | some (g2, r2) =>
              rw [h2] at h; simp [consFst] at h
              have := ih h2
              simp [← h.2]; omega
          | none => rw [h2] at h; simp [consFst] at h

/-- `re.sub(r"'(.*?)':", '"\1":', s)`: single-quoted keys become
double-quoted. -/
def quoteKeysAux : Nat → Str → Str
  | 0, s => s
  | _ + 1, [] => []
  | fuel + 1, c :: rest =>
      if c = '\x27' then
        match scanUntil false ['\x27', ':'] rest with
        | some (content, rest') =>
            '"' :: (content ++ '"' :: ':' :: quoteKeysAux fuel rest')
        | none => '\x27' :: quoteKeysAux fuel rest
      else c :: quoteKeysAux fuel rest

def quoteKeys (s : Str) : Str := quoteKeysAux (s.length + 1) s

/-- `re.sub(r": '(.*?)'", ': "\1"', s)`: single-quoted values become
double-quoted. -/
def quoteValsAux : Nat → Str → Str
  | 0, s => s
  | _ + 1, [] => []
  | fuel + 1, c :: rest =>
      if begins (c :: rest) [':', ' ', '\x27'] then
        match scanUntil false ['\x27'] (rest.drop 2) with
        | some (content, rest') =>
            ':' :: ' ' :: '"' :: (content ++ '"' :: quoteValsAux fuel rest')
        | none => c :: quoteValsAux fuel rest
      else c :: quoteValsAux fuel rest

def quoteVals (s : Str) : Str := quoteValsAux (s.length + 1) s

/-- `re.sub(r"\['(.*?)'\]", '["\1"]', s)`: single-quoted bracketed values
become double-quoted. -/
def quoteArrsAux : Nat → Str → Str
  | 0, s => s
  | _ + 1, [] => []
  | fuel + 1, c :: rest =>
      if begins (c :: rest) ['[', '\x27'] then
        match scanUntil false ['\x27', ']'] (rest.drop 1) with
        | some (content, rest') =>
            '[' :: '"' :: (content ++ '"' :: ']' :: quoteArrsAux fuel rest')
        | none => c :: quoteArrsAux fuel rest
      else c :: quoteArrsAux fuel rest

def quoteArrs (s : Str) : Str := quoteArrsAux (s.length + 1) s

-- #### The bounded-depth brace pattern of `_find_json_in_text`
-- `\{(?:[^{}]|(?:\{(?:[^{}]|\{[^{}]*\})*\}))*\}` matches, at a `{`, the text
-- up to its matching `}` provided the nesting inside never exceeds two more
-- levels; a deeper inner group makes the whole attempt at that `{` fail.

/-- The group body after an opening brace with `d` further nesting levels
allowed; returns the body including the closing brace. -/
def matchInner : Nat → Nat → Str → Option (Str × Str)
  | 0, _, _ => none
  | _ + 1, _, [] => none
  | fuel + 1, d, c :: rest =>
      if c = rbrace then some ([rbrace], rest)
      else if c = lbrace then
        match d with
        | 0 => none
        | d' + 1 =>
            match matchInner fuel d' rest with
            | some (g, rest') =>
                match matchInner fuel (d' + 1) rest' with
                | some (g2, rest'') => some (lbrace :: (g ++ g2), rest'')
                | none => none
            | none => none
      else
        match matchInner fuel d rest with
        | some (g2, rest') => some (c :: g2, rest')
        | none => none

/-- One attempt of the bounded-depth pattern at the current position. -/
def matchGroupAt (s : Str) : Option (Str × Str) :=
  match s with
  | c :: rest =>
      if c = lbrace then
        match matchInner (rest.length + 1) 2 rest with
        | some (g, r) => some (lbrace :: g, r)
        | none => none
      else none
  | [] => none

/-- `re.findall` of the bounded-depth pattern: leftmost non-overlapping
matches. -/
def findallBracesAux : Nat → Str → List Str
  | 0, _ => []
  | fuel + 1, s =>
      match s with
      | [] => []
      | c :: rest =>
          match matchGroupAt (c :: rest) with
          | some (g, r) => g :: findallBracesAux fuel r
          | none => findallBracesAux fuel rest

def findallBraces (s : Str) : List Str := findallBracesAux (s.length + 1) s

-- #### The fenced-block pattern of `_extract_json_blocks`
-- `re.finditer(r"```(?:json)?\s*\n(.*?)\n```", text, re.DOTALL)`

/-- The suffixes just after each newline inside the leading whitespace run, in
position order; backtracking of `\s*\n` tries them from the last one back. -/
def nlTails : Str → List Str
  | [] => []
  | c :: rest =>
      if pyIsSpace c then
        if c = '\n' then rest :: nlTails rest else nlTails rest
      else []

/-- First tail on which the lazy body and the closing `\n```` succeed. -/
def tryTails : List Str → Option (Str × Str)
  | [] => none
  | p :: rest =>
      match scanUntil true ('\n' :: "```".toList) p with
      | some r => some r
      | none => tryTails rest

/-- The `\s*\n(.*?)\n```` tail of the block pattern, after the fence and
optional tag. -/
def fenceTail (s : Str) : Option (Str × Str) := tryTails (nlTails s).reverse

/-- One attempt of the block pattern at the current position; yields the inner
group and the text after the whole match. -/
def matchFenceAt : Str → Option (Str × Str)
  | '`' :: '`' :: '`' :: rest =>
      if begins rest "json".toList then
        match fenceTail (rest.drop 4) with
        | some r => some r
        | none => fenceTail rest
      else fenceTail rest
  | _ => none

/-- `finditer` scan for blocks: every non-overlapping match, with the offset of
its opening fence; the inner group is stripped as the code does. -/
def extractJsonBlocksAux : Nat → Nat → Str → List (Str × Nat)
  | 0, _, _ => []
  | fuel + 1, i, s =>
      match s with
      | [] => []
      | c :: rest =>
          match matchFenceAt (c :: rest) with
          | some (inner, after) =>
              (pyStrip inner, i) ::
                extractJsonBlocksAux fuel (i + ((c :: rest).length - after.length)) after
          | none => extractJsonBlocksAux fuel (i + 1) rest

def extract_json_blocks (s : Str) : List (Str × Nat) :=
  extractJsonBlocksAux (s.length + 1) 0 s

-- ### The tool parser itself (`Llama33ToolParser`)

/-- The exceptions this code can raise: `json.JSONDecodeError` from `loads`,
`ValueError` from `str.index`, and the `TypeError` its handlers also catch. -/
inductive PyErr where
  | jsonDecodeError : PyErr
  | typeError : PyErr
  | valueError : PyErr
deriving DecidableEq

/-- `json.loads` as the raising operation it is in Python. -/
def loadsE (s : Str) : Except PyErr Json :=
  match loads s with
  | some v => Except.ok v
  | none => Except.error .jsonDecodeError

/-- `str.index`: the offset of a substring, raising `ValueError` when absent. -/
def indexE (hay pat : Str) : Except PyErr Nat :=
  match findSub hay pat with
  | some i => Except.ok i
  | none => Except.error .valueError

/-- `try ... except (json.JSONDecodeError, TypeError): ...` -/
def pyCatch {α : Type} (body handler : Except PyErr α) : Except PyErr α :=
  match body with
  | .ok a => .ok a
  | .error e =>
      if e = .jsonDecodeError || e = .typeError then handler else .error e

/-- The payload of a produced `ToolCall`.  The randomly generated `id` and the
constant `type="function"` tag carry no information and are elided. -/
structure ToolCall where
  name : Str
  arguments : Str
deriving DecidableEq

def nameKey : Str := "name".toList

def argumentsKey : Str := "arguments".toList

/-- The validation and conversion block of `_parse_json_tool_call`, applied to
a parsed value: a mapping with a non-empty-after-strip string under "name" and
a mapping or string under "arguments"; a mapping argument is re-serialized with
`json.dumps`, a string argument passes through. -/
def validateAndConvert (v : Json) : List ToolCall :=
  match v with
  | .obj fields =>
      if fields.hasKey nameKey && fields.hasKey argumentsKey then
        match fields.get nameKey, fields.get argumentsKey with
        | some nv, some av =>
            match nv with
            | .str n =>
                if pyStrip n = [] then []
                else
                  match av with
                  | .obj m => [⟨n, dumpsVal (.obj m)⟩]
                  | .str a => [⟨n, a⟩]
                  | _ => []
            | _ => []
        | _, _ => []
      else []
  | _ => []

/-- Stages applied by `_parse_json_tool_call` before its first parse attempt:
strip, fence removal, the quote rewrite (only when an apostrophe occurs), and
comment removal — cumulatively, with no intermediate parse. -/
def repairStage123 (s : Str) : Str :=
  let s1 := pyStrip s
  let s2 := stripTrailFence (stripLeadFence s1)
  let s3 := if s2.contains '\x27' then quoteArrs (quoteVals (quoteKeys s2)) else s2
  removeComments s3

/-- `_parse_json_tool_call`: parse after stages 1–3; on a caught failure strip
trailing commas and parse once more; a second caught failure yields no calls. -/
def parse_json_tool_call (s : Str) : Except PyErr (List ToolCall) :=
  pyCatch
    (match loadsE (repairStage123 s) with
     | .ok v => .ok (validateAndConvert v)
     | .error e => .error e)
    (pyCatch
      (match loadsE (removeTrailingCommas (repairStage123 s)) with
       | .ok v => .ok (validateAndConvert v)
       | .error e => .error e)
      (.ok []))

/-- Does this text parse as a mapping carrying both required keys?  (The
structure check `_find_json_in_text` performs on each candidate.) -/
def validTopLevel (s : Str) : Bool :=
  match loads s with
  | some (.obj fields) => fields.hasKey nameKey && fields.hasKey argumentsKey
  | _ => false

/-- The candidate loop of `_find_json_in_text`: each bounded-depth brace match
is tried raw, then — note the order, opposite to `_parse_json_tool_call` —
with trailing commas stripped first and comments removed second. -/
def findCandLoop : List Str → Option Str
  | [] => none
  | cand :: rest =>
      if validTopLevel cand then some cand
      else
        let cleaned := removeComments (removeTrailingCommas (pyStrip cand))
        if validTopLevel cleaned then some cleaned
        else findCandLoop rest

/-- `_find_json_in_text`: the whole text if it parses to a well-keyed mapping,
else the first (possibly cleaned) brace-pattern candidate that does. -/
def find_json_in_text (t : Str) : Option Str :=
  if validTopLevel t then some t else findCandLoop (findallBraces t)

/-- One entry of the `candidates` list of `extract_tool_calls`. -/
structure Cand where
  start : Nat
  toolCalls : List ToolCall
  content : Option Str
deriving DecidableEq

/-- `x or None` on an already stripped string. -/
def orNone (s : Str) : Option Str := if s = [] then none else some s

def toolUseStart : Str := "<|tool_call|>".toList

def toolUseEnd : Str := "<|tool_call_end|>".toList

/-- The special-token strategy: text between the first begin and first end
marker, when both are present. -/
def specialCandE (t : Str) : Except PyErr (List Cand) :=
  if hasSub t toolUseStart && hasSub t toolUseEnd then
    match indexE t toolUseStart, indexE t toolUseEnd with
    | .ok i, .ok j =>
        match parse_json_tool_call (pyStrip (pySlice (i + toolUseStart.length) j t)) with
        | .ok tcs =>
            .ok (if tcs = [] then []
                 else [⟨i, tcs, orNone (pyStrip (pySlice 0 i t))⟩])
        | .error e => .error e
    | .error e, _ => .error e
    | _, .error e => .error e
  else .ok []

/-- The fenced-block strategy: one candidate per block, at the block's own
start offset. -/
def blocksCandE (t : Str) : List (Str × Nat) → Except PyErr (List Cand)
  | [] => .ok []
  | (inner, bstart) :: rest =>
      match parse_json_tool_call inner with
      | .ok tcs =>
          match blocksCandE t rest with
          | .ok cs =>
              .ok (if tcs = [] then cs
                   else ⟨bstart, tcs, orNone (pyStrip (pySlice 0 bstart t))⟩ :: cs)
          | .error e => .error e
      | .error e => .error e

/-- The bare-JSON strategy: at most one candidate, dropped when `str.find`
cannot locate the (possibly cleaned) match text in the original. -/
def bareCandE (t : Str) : Except PyErr (List Cand) :=
  match find_json_in_text t with
  | some m =>
      if m = [] then .ok []
      else
        match parse_json_tool_call m with
        | .ok tcs =>
            if tcs = [] then .ok []
            else
              match findSub t m with
              | some i => .ok [⟨i, tcs, orNone (pyStrip (pySlice 0 i t))⟩]
              | none => .ok []
        | .error e => .error e
  | none => .ok []

/-- The full candidate list, in registration order: special token, fenced
blocks, bare JSON. -/
def candidatesE (t : Str) : Except PyErr (List Cand) :=
  match specialCandE t with
  | .ok cs1 =>
      match blocksCandE t (extract_json_blocks t) with
      | .ok cs2 =>
          match bareCandE t with
          | .ok cs3 => .ok (cs1 ++ cs2 ++ cs3)
          | .error e => .error e
      | .error e => .error e
  | .error e => .error e

/-- Stable ascending insertion by start offset (`list.sort(key=...)` is
stable). -/
def insertCand (c : Cand) : List Cand → List Cand
  | [] => [c]
  | d :: ds => if d.start < c.start then d :: insertCand c ds else c :: d :: ds

def sortCands : List Cand → List Cand
  | [] => []
  | c :: cs => insertCand c (sortCands cs)

/-- The result record of `extract_tool_calls`. -/
structure ExtractionResult where
  toolsCalled : Bool
  toolCalls : List ToolCall
  content : Option Str
deriving DecidableEq

/-- `earliest["content"] or None`. -/
def optOrNone : Option Str → Option Str
  | none => none
  | some s => if s = [] then none else some s

/-- `extract_tool_calls`: earliest-start candidate wins; with no candidate the
whole untrimmed text is returned as content. -/
def extract_tool_calls (t : Str) : Except PyErr ExtractionResult :=
  match candidatesE t with
  | .ok cands =>
      match cands with
      | [] => .ok ⟨false, [], some t⟩
      | c :: rest =>
          match sortCands (c :: rest) with
          | e :: _ => .ok ⟨true, e.toolCalls, optOrNone e.content⟩
          | [] => .ok ⟨false, [], some t⟩
  | .error e => .error e

/-- The result of `extract_tool_calls` as a value (it is proved below that the
error branch is unreachable). -/
def extract_res (t : Str) : ExtractionResult :=
  match extract_tool_calls t with
  | .ok r => r
  | .error _ => ⟨false, [], some t⟩

/-- The delta record a streaming parser may emit: a reasoning piece, a content
piece, either possibly absent. -/
structure DeltaMessage where
  reasoningContent : Option Str
  content : Option Str
deriving DecidableEq

/-- `extract_tool_calls_streaming`: the unimplemented placeholder. -/
def extract_tool_calls_streaming {Req : Type}
    (previous_text current_text delta_text : Str)
    (previous_token_ids current_token_ids delta_token_ids : List Nat)
    (request : Req) : Option DeltaMessage :=
  none

-- ### Declarative companions the theorems are stated against

/-- The first candidate of minimal start offset, stated by direct recursion
rather than through sorting. -/
def selectEarliest : List Cand → Option Cand
  | [] => none
  | c :: cs =>
      match selectEarliest cs with
      | none => some c
      | some m => if c.start ≤ m.start then some c else some m

/-- Brace-balance scan at current depth `d`, maximal depth bounded by `D`. -/
def braceDepth (D : Nat) : Nat → Str → Bool
  | d, [] => decide (d = 0)
  | d, c :: rest =>
      if c = lbrace then decide (d + 1 ≤ D) && braceDepth D (d + 1) rest
      else if c = rbrace then
        match d with
        | 0 => false
        | d' + 1 => braceDepth D d' rest
      else braceDepth D d rest

/-- A balanced brace string whose nesting never exceeds depth `D`. -/
def balancedLe (D : Nat) (s : Str) : Bool := !s.isEmpty && braceDepth D 0 s

/-- Modelled from the spec: the Repairer of §4.1/§4.8, which "applies, in
order, re-parsing after each" stage — fence stripping, the conditional quote
rewrite, comment stripping, trailing-comma stripping — and "returns success at
the first stage that yields valid JSON".  Stated with the code's own stage
functions so that only the re-parse schedule differs from
`parse_json_tool_call`. -/
def repairSpecStagewise (s : Str) : Option Json :=
  let t0 := pyStrip s
  match loads t0 with
  | some v => some v
  | none =>
    let t1 := stripTrailFence (stripLeadFence t0)
    match loads t1 with
    | some v => some v
    | none =>
      let t2 := if t1.contains '\x27' then quoteArrs (quoteVals (quoteKeys t1)) else t1
      match loads t2 with
      | some v => some v
      | none =>
        let t3 := removeComments t2
        match loads t3 with
        | some v => some v
        | none => loads (removeTrailingCommas t3)

/-- The amended repair schedule actually implemented: stages 1–3 cumulatively,
one parse, then the trailing-comma stage and one final parse. -/
def repairImpl (s : Str) : Option (List ToolCall) :=
  match loads (repairStage123 s) with
  | some v => some (validateAndConvert v)
  | none =>
      match loads (removeTrailingCommas (repairStage123 s)) with
      | some v => some (validateAndConvert v)
      | none => none

/-- The comment pattern has a match exactly when this does. -/
def hasCommentMatch : Str → Bool
  | [] => false
  | '/' :: '/' :: rest => (dropPastNewline rest).isSome || hasCommentMatch rest
  | _ :: rest => hasCommentMatch rest

/-- The trailing-comma pattern has a match exactly when this does. -/
def hasCommaCloserAux : Nat → Str → Bool
  | 0, _ => false
  | _ + 1, [] => false
  | fuel + 1, c0 :: rest =>
      if c0 = ',' then
        match rest.dropWhile pyIsSpace with
        | c :: after =>
            if c = rbrace || c = ']' then true else hasCommaCloserAux fuel (c :: after)
        | [] => false
      else hasCommaCloserAux fuel rest

def hasCommaCloser (s : Str) : Bool := hasCommaCloserAux (s.length + 1) s

-- #### Well-formedness of parsed values (what `json.loads` can produce)

/-- A number literal the tokenizer recognizes in full. -/
def wfNum (lit : Str) : Bool := parseNumberToken lit = some (lit, [])

def keysNodup : JsonObj → Bool
  | .nil => true
  | .cons k _ tl => !tl.hasKey k && keysNodup tl

mutual

def wfVal : Json → Bool
  | .null => true
  | .bool _ => true
  | .num lit => wfNum lit
  | .str _ => true
  | .arr l => wfList l
  | .obj f => keysNodup f && wfObj f

def wfList : JsonList → Bool
  | .nil => true
  | .cons v tl => wfVal v && wfList tl

def wfObj : JsonObj → Bool
  | .nil => true
  | .cons _ v tl => wfVal v && wfObj tl

end

-- #### Fuel accounting for the round-trip argument

mutual

def needVal : Json → Nat
  | .arr l => 2 + needList l
  | .obj f => 2 + needObj f
  | .null => 1
  | .bool _ => 1
  | .str _ => 1
  | .num _ => 1

def needList : JsonList → Nat
  | .nil => 0
  | .cons v tl => 1 + needVal v + needList tl

def needObj : JsonObj → Nat
  | .nil => 0
  | .cons _ v tl => 1 + needVal v + needObj tl

end

-- ### The reasoning stream tracker, modelled from the spec

/-- Strip exactly two contiguous leading newlines when both are present; one or
zero leading newlines pass through (spec §4.3 whitespace rule). -/
def stripTwoNl : Str → Str
  | '\n' :: '\n' :: rest => rest
  | s => s

/-- Split at the first occurrence of `marker`: text before and text after. -/
def splitFirst (marker s : Str) : Option (Str × Str) := scanUntil true marker s

/-- Modelled from the spec: `extract_reasoning_content_streaming` of the
reasoning parser (its source is not in the repository; §4.3 defines it).  The
end-of-reasoning marker is detected by token id; the three branches are the
spec's bullets: marker id absent from the current ids, marker id already in
the previous ids, and marker id newly arrived in the delta. -/
def extract_reasoning_content_streaming
    (endTok : Str) (endId : Nat)
    (previousText currentText deltaText : Str)
    (previousIds currentIds deltaIds : List Nat) : Option DeltaMessage :=
  if ¬ currentIds.contains endId then
    some ⟨some deltaText, none⟩
  else if previousIds.contains endId then
    let afterPrev :=
      match splitFirst endTok previousText with
      | some (_, a) => a
      | none => []
    let c :=
      if pyStrip afterPrev = [] then stripTwoNl deltaText else deltaText
    some ⟨none, some c⟩
  else
    match splitFirst endTok deltaText with
    | some (before, after) =>
        let c := stripTwoNl after
        some ⟨some before, if c = [] then none else some c⟩
    | none => some ⟨some deltaText, none⟩

/-- The candidate list `extract_tool_calls` builds (proved below to be the only
reachable branch of `candidatesE`). -/
def candList (t : Str) : List Cand :=
  match candidatesE t with
  | .ok l => l
  | .error _ => []

-- Concrete inputs used by counterexamples and witnesses.

/-- Two substrings that each validate after repair; the first carries a
trailing comma that only the repair removes. -/
def cexTwoJson : Str :=
  "\x7b\"name\": \"a\", \"arguments\": \x7b\"k\": 1,\x7d\x7d \x7b\"name\": \"b\", \"arguments\": \x7b\x7d\x7d".toList

def cexTwoJsonSub1 : Str :=
  "\x7b\"name\": \"a\", \"arguments\": \x7b\"k\": 1,\x7d\x7d".toList

def cexTwoJsonSub2 : Str :=
  "\x7b\"name\": \"b\", \"arguments\": \x7b\x7d\x7d".toList

/-- A marker-wrapped call: the special-token strategy and the bare-JSON
strategy each register a candidate. -/
def wtnTwoCands : Str :=
  ("x <|tool_call|>".toList ++ "\x7b\"name\": \"t\", \"arguments\": \x7b\x7d\x7d".toList ++
    "<|tool_call_end|>".toList)

/-- Valid JSON that the comment stage corrupts: a `//` inside a string
literal, a newline later in the text. -/
def cexCommentJson : Str :=
  "\x7b\"name\": \"x//y\",\n\"arguments\": \x7b\x7d\x7d".toList

/-- A fenced tool call whose fence-stripped text is already valid JSON but
whose `//`-in-string is then destroyed by the comment stage. -/
def cexStagewise : Str :=
  "```json\n\x7b\"name\": \"a//b\", \"arguments\": \x7b\x7d\x7d\n```".toList

/-- A tool call whose arguments nest to brace depth four. -/
def cexDeep : Str :=
  "x \x7b\"name\": \"t\", \"arguments\": \x7b\"a\": \x7b\"b\": \x7b\"c\": 1\x7d\x7d\x7d\x7d".toList

def cexDeepSub : Str :=
  "\x7b\"name\": \"t\", \"arguments\": \x7b\"a\": \x7b\"b\": \x7b\"c\": 1\x7d\x7d\x7d\x7d".toList

-- ## Theorems

-- ### C10: the streaming entry point is a placeholder

/-- C10: for every combination of inputs — previous, current and delta text,
the three token-id sequences, and a request of any type — the tool parser's
`extract_tool_calls_streaming` returns `None`: incremental extraction is an
unimplemented placeholder that never produces a delta. -/
theorem c10_streaming_placeholder {Req : Type}
    (previous_text current_text delta_text : Str)
    (previous_token_ids current_token_ids delta_token_ids : List Nat)
    (request : Req) :
    extract_tool_calls_streaming previous_text current_text delta_text
      previous_token_ids current_token_ids delta_token_ids request = none := rfl

-- ### C8: no exception escapes `extract_tool_calls`

theorem loadsE_error {s : Str} {e : PyErr} (h : loadsE s = .error e) :
    e = .jsonDecodeError := by
  unfold loadsE at h
  cases hl : loads s <;> rw [hl] at h <;> simp at h
  exact h.symm

theorem parse_json_tool_call_ok (s : Str) :
    ∃ l, parse_json_tool_call s = Except.ok l := by
  unfold parse_json_tool_call loadsE pyCatch
  cases loads (repairStage123 s) <;>
    cases loads (removeTrailingCommas (repairStage123 s)) <;> simp

theorem hasSub_findSub {t p : Str} (h : hasSub t p = true) :
    ∃ i, findSub t p = some i := by
  unfold hasSub at h
  cases hf : findSub t p with
  | some i => exact ⟨i, rfl⟩
  | none => rw [hf] at h; simp at h

theorem specialCandE_ok (t : Str) : ∃ l, specialCandE t = Except.ok l := by
  unfold specialCandE
  split
  · next hguard =>
    simp only [Bool.and_eq_true] at hguard
    obtain ⟨i, hi⟩ := hasSub_findSub hguard.1
    obtain ⟨j, hj⟩ := hasSub_findSub hguard.2
    obtain ⟨l, hl⟩ :=
      parse_json_tool_call_ok (pyStrip (pySlice (i + toolUseStart.length) j t))
    unfold indexE
    rw [hi, hj]
    dsimp only
    rw [hl]
    exact ⟨_, rfl⟩
  · exact ⟨[], rfl⟩

theorem blocksCandE_ok (t : Str) (bs : List (Str × Nat)) :
    ∃ l, blocksCandE t bs = Except.ok l := by
  induction bs with
  | nil => exact ⟨[], rfl⟩
  | cons b rest ih =>
      obtain ⟨l1, h1⟩ := parse_json_tool_call_ok b.1
      obtain ⟨l2, h2⟩ := ih
      unfold blocksCandE
      rw [h1, h2]
      exact ⟨_, rfl⟩

theorem bareCandE_ok (t : Str) : ∃ l, bareCandE t = Except.ok l := by
  unfold bareCandE
  cases hf : find_json_in_text t with
  | none => exact ⟨[], rfl⟩
  | some m =>
      dsimp only
      split
      · exact ⟨[], rfl⟩
      · obtain ⟨l, hl⟩ := parse_json_tool_call_ok m
        rw [hl]
        dsimp only
        split
        · exact ⟨[], rfl⟩
        · cases findSub t m <;> exact ⟨_, rfl⟩

theorem candidatesE_ok (t : Str) : candidatesE t = Except.ok (candList t) := by
  obtain ⟨l1, h1⟩ := specialCandE_ok t
  obtain ⟨l2, h2⟩ := blocksCandE_ok t (extract_json_blocks t)
  obtain ⟨l3, h3⟩ := bareCandE_ok t
  unfold candList candidatesE
  rw [h1, h2, h3]

/-- C8: for every input text — including arbitrarily malformed model output —
`extract_tool_calls` returns a result and never propagates an exception: every
`json.JSONDecodeError` is caught where the offending candidate is discarded,
and each `str.index` call is guarded by a substring test. -/
theorem c8_no_exception (t : Str) : (extract_tool_calls t).isOk = true := by
  unfold extract_tool_calls
  rw [candidatesE_ok t]
  cases candList t with
  | nil => rfl
  | cons c rest =>
      rcases h : sortCands (c :: rest) with _ | ⟨e, tail⟩ <;>
        simp [h, Except.isOk, Except.toBool]

-- ### C2: the no-candidate path returns the untrimmed text

/-- C2: whenever no strategy registers a validated candidate, the result is
`tools_called = false`, no calls, and `content` exactly the whole original
input, with no whitespace trimming. -/
theorem c2_no_match (t : Str) (h : candList t = []) :
    extract_res t = ⟨false, [], some t⟩ := by
  unfold extract_res extract_tool_calls
  rw [candidatesE_ok t, h]

/-- Witness for C2 at a concrete input with no tool call. -/
theorem c2_no_match_witness :
    candList "This is a normal response.".toList = [] ∧
      extract_res "This is a normal response.".toList =
        ⟨false, [], some "This is a normal response.".toList⟩ := by
  refine ⟨by decide, c2_no_match _ (by decide)⟩

-- ### Structure of the candidate list and of the sort

theorem validateAndConvert_shape (v : Json) :
    validateAndConvert v = [] ∨ ∃ tc, validateAndConvert v = [tc] := by
  unfold validateAndConvert
  cases v <;> try exact Or.inl rfl
  next fields =>
    dsimp only
    repeat' split
    all_goals first | exact Or.inl rfl | exact Or.inr ⟨_, rfl⟩

theorem parse_json_tool_call_shape {s : Str} {l : List ToolCall}
    (h : parse_json_tool_call s = Except.ok l) :
    l = [] ∨ ∃ v src, loads src = some v ∧ l = validateAndConvert v := by
  unfold parse_json_tool_call pyCatch loadsE at h
  cases h1 : loads (repairStage123 s) with
  | some v =>
      rw [h1] at h; simp at h
      exact Or.inr ⟨v, _, h1, by simp [h]⟩
  | none =>
      rw [h1] at h
      cases h2 : loads (removeTrailingCommas (repairStage123 s)) with
      | some v =>
          rw [h2] at h; simp at h
          exact Or.inr ⟨v, _, h2, by simp [h]⟩
      | none =>
          rw [h2] at h; simp at h
          exact Or.inl (by simp [← h])

/-- What every registered candidate looks like: a single converted call and a
stripped-prefix content field. -/
def CandOk (c : Cand) : Prop :=
  (∃ tc v src, c.toolCalls = [tc] ∧ loads src = some v ∧
     validateAndConvert v = [tc]) ∧
  ∃ pre, c.content = orNone (pyStrip pre)

theorem candOk_of_parse {s : Str} {tcs : List ToolCall} {i : Nat} {pre : Str}
    (h : parse_json_tool_call s = Except.ok tcs) (hne : tcs ≠ []) :
    CandOk ⟨i, tcs, orNone (pyStrip pre)⟩ := by
  rcases parse_json_tool_call_shape h with h0 | ⟨v, src, hsrc, hv⟩
  · exact absurd h0 hne
  · rcases validateAndConvert_shape v with h1 | ⟨tc, h1⟩
    · rw [hv, h1] at hne; exact absurd rfl hne
    · exact ⟨⟨tc, v, src, by simp [hv, h1], hsrc, h1⟩, pre, rfl⟩

theorem specialCandE_inv {t : Str} {l : List Cand} (h : specialCandE t = Except.ok l) :
    ∀ c ∈ l, CandOk c := by
  unfold specialCandE at h
  split at h
  · next hguard =>
    simp only [Bool.and_eq_true] at hguard
    obtain ⟨i, hi⟩ := hasSub_findSub hguard.1
    obtain ⟨j, hj⟩ := hasSub_findSub hguard.2
    unfold indexE at h
    rw [hi, hj] at h
    dsimp only at h
    cases h3 : parse_json_tool_call (pyStrip (pySlice (i + toolUseStart.length) j t)) with
    | ok tcs =>
        rw [h3] at h
        dsimp only at h
        split at h
        · simp only [Except.ok.injEq] at h; subst h; intro c hc; simp at hc
        · next hne =>
            simp only [Except.ok.injEq] at h; subst h
            intro c hc
            simp only [List.mem_singleton] at hc
            subst hc
            exact candOk_of_parse h3 hne
    | error e => rw [h3] at h; simp at h
  · simp only [Except.ok.injEq] at h; subst h; intro c hc; simp at hc

theorem blocksCandE_inv {t : Str} {bs : List (Str × Nat)} {l : List Cand}
    (h : blocksCandE t bs = Except.ok l) : ∀ c ∈ l, CandOk c := by
  induction bs generalizing l with
  | nil => unfold blocksCandE at h; simp only [Except.ok.injEq] at h; subst h; simp
  | cons b rest ih =>
      unfold blocksCandE at h
      cases h1 : parse_json_tool_call b.1 with
      | error e => rw [h1] at h; simp at h
      | ok tcs =>
          rw [h1] at h
          dsimp only at h
          cases h2 : blocksCandE t rest with
          | error e => rw [h2] at h; simp at h
          | ok cs =>
              rw [h2] at h
              dsimp only at h
              split at h
              · simp only [Except.ok.injEq] at h; subst h; exact ih h2
              · next hne =>
                  simp only [Except.ok.injEq] at h; subst h
                  intro c hc
                  rcases List.mem_cons.mp hc with hc | hc
                  · subst hc; exact candOk_of_parse h1 hne
                  · exact ih h2 c hc

theorem bareCandE_inv {t : Str} {l : List Cand} (h : bareCandE t = Except.ok l) :
    ∀ c ∈ l, CandOk c := by
  unfold bareCandE at h
  cases hf : find_json_in_text t with
  | none => rw [hf] at h; simp only [Except.ok.injEq] at h; subst h; simp
  | some m =>
      rw [hf] at h
      dsimp only at h
      split at h
      · simp only [Except.ok.injEq] at h; subst h; simp
      · cases h1 : parse_json_tool_call m with
        | error e => rw [h1] at h; simp at h
        | ok tcs =>
            rw [h1] at h
            dsimp only at h
            split at h
            · simp only [Except.ok.injEq] at h; subst h; simp
            · next hne =>
                cases h2 : findSub t m with
                | some i =>
                    rw [h2] at h
                    simp only [Except.ok.injEq] at h; subst h
                    intro c hc
                    simp only [List.mem_singleton] at hc
                    subst hc
                    exact candOk_of_parse h1 hne
                | none =>
                    rw [h2] at h
                    simp only [Except.ok.injEq] at h; subst h; simp

theorem candList_inv (t : Str) : ∀ c ∈ candList t, CandOk c := by
  have hok := candidatesE_ok t
  unfold candidatesE at hok
  cases h1 : specialCandE t with
  | error e => rw [h1] at hok; simp at hok
  | ok l1 =>
      rw [h1] at hok; dsimp only at hok
      cases h2 : blocksCandE t (extract_json_blocks t) with
      | error e => rw [h2] at hok; simp at hok
      | ok l2 =>
          rw [h2] at hok; dsimp only at hok
          cases h3 : bareCandE t with
          | error e => rw [h3] at hok; simp at hok
          | ok l3 =>
              rw [h3] at hok
              simp only [Except.ok.injEq] at hok
              rw [← hok]
              intro c hc
              rcases List.mem_append.mp hc with hc | hc
              · rcases List.mem_append.mp hc with hc | hc
                · exact specialCandE_inv h1 c hc
                · exact blocksCandE_inv h2 c hc
              · exact bareCandE_inv h3 c hc

theorem mem_insertCand {x c : Cand} {l : List Cand} :
    x ∈ insertCand c l ↔ x = c ∨ x ∈ l := by
  induction l with
  | nil => simp [insertCand]
  | cons d ds ih =>
      unfold insertCand
      split
      all_goals simp only [List.mem_cons, ih]
      all_goals tauto

theorem mem_sortCands {x : Cand} {l : List Cand} : x ∈ sortCands l ↔ x ∈ l := by
  induction l with
  | nil => simp [sortCands]
  | cons c cs ih =>
      unfold sortCands
      rw [mem_insertCand, ih]
      simp

theorem head?_insertCand (c : Cand) (l : List Cand) :
    (insertCand c l).head? =
      some (match l.head? with
            | none => c
            | some d => if d.start < c.start then d else c) := by
  cases l with
  | nil => rfl
  | cons d ds =>
      unfold insertCand
      split
      · next h => simp [if_pos h]
      · next h => simp [if_neg h]

theorem head?_sortCands (l : List Cand) : (sortCands l).head? = selectEarliest l := by
  induction l with
  | nil => rfl
  | cons c cs ih =>
      unfold sortCands selectEarliest
      rw [head?_insertCand, ih]
      cases selectEarliest cs with
      | none => rfl
      | some m =>
          dsimp only
          by_cases hm : m.start < c.start
          · rw [if_pos hm, if_neg (by omega)]
          · rw [if_neg hm, if_pos (by omega)]

theorem selectEarliest_eq_none {l : List Cand} : selectEarliest l = none ↔ l = [] := by
  cases l with
  | nil => simp [selectEarliest]
  | cons c cs =>
      unfold selectEarliest
      cases selectEarliest cs
      · simp
      · dsimp only
        split <;> simp

theorem selectEarliest_decomp {l : List Cand} {w : Cand}
    (h : selectEarliest l = some w) :
    ∃ l1 l2, l = l1 ++ w :: l2 ∧ (∀ x ∈ l1, w.start < x.start) ∧
      ∀ x ∈ l2, w.start ≤ x.start := by
  induction l generalizing w with
  | nil => simp [selectEarliest] at h
  | cons c cs ih =>
      unfold selectEarliest at h
      cases hsc : selectEarliest cs with
      | none =>
          rw [hsc] at h
          simp only [Option.some.injEq] at h
          subst h
          have hnil := selectEarliest_eq_none.mp hsc
          subst hnil
          exact ⟨[], [], rfl, by simp, by simp⟩
      | some m =>
          rw [hsc] at h
          dsimp only at h
          obtain ⟨l1, l2, hdec, hlt, hle⟩ := ih hsc
          split at h
          · next hcm =>
              simp only [Option.some.injEq] at h
              subst h
              refine ⟨[], cs, rfl, by simp, ?_⟩
              intro x hx
              rw [hdec] at hx
              rcases List.mem_append.mp hx with hx | hx
              · exact le_of_lt (lt_of_le_of_lt hcm (hlt x hx))
              · rcases List.mem_cons.mp hx with hx | hx
                · subst hx; exact hcm
                · exact le_trans hcm (hle x hx)
          · next hcm =>
              simp only [Option.some.injEq] at h
              subst h
              exact ⟨c :: l1, l2, by simp [hdec], by
                intro x hx
                rcases List.mem_cons.mp hx with hx | hx
                · subst hx; omega
                · exact hlt x hx, hle⟩

theorem selectEarliest_min {l : List Cand} {w : Cand}
    (h : selectEarliest l = some w) : w ∈ l ∧ ∀ x ∈ l, w.start ≤ x.start := by
  obtain ⟨l1, l2, hdec, hlt, hle⟩ := selectEarliest_decomp h
  subst hdec
  constructor
  · simp
  · intro x hx
    rcases List.mem_append.mp hx with hx | hx
    · exact le_of_lt (hlt x hx)
    · rcases List.mem_cons.mp hx with hx | hx
      · subst hx; exact le_refl _
      · exact hle x hx

-- ### C3: result invariants

theorem optOrNone_orNone (s : Str) : optOrNone (orNone s) = orNone s := by
  unfold optOrNone orNone
  split <;> simp_all

/-- C3 (amended): `tools_called` is true exactly when a call is present, at
most one call is ever returned, and on the match path `content` is a stripped
prefix rendered absent exactly when it strips to empty; but on the no-match
path `content` is the whole untrimmed input, present even when it is
whitespace-only — there the original absent-iff-trim-empty biconditional
fails. -/
theorem c3_result_invariants (t : Str) :
    ((extract_res t).toolsCalled = true ↔ (extract_res t).toolCalls ≠ []) ∧
    (extract_res t).toolCalls.length ≤ 1 ∧
    ((extract_res t).toolsCalled = false → (extract_res t).content = some t) ∧
    ((extract_res t).toolsCalled = true →
      ∃ pre, (extract_res t).content = orNone (pyStrip pre)) := by
  have hres : extract_res t = match candList t with
      | [] => ⟨false, [], some t⟩
      | c :: rest =>
          match sortCands (c :: rest) with
          | e :: _ => ⟨true, e.toolCalls, optOrNone e.content⟩
          | [] => ⟨false, [], some t⟩ := by
    unfold extract_res extract_tool_calls
    rw [candidatesE_ok t]
    cases candList t with
    | nil => rfl
    | cons c rest => cases hs : sortCands (c :: rest) <;> simp [hs]
  rw [hres]
  cases hcl : candList t with
  | nil => simp
  | cons c rest =>
      cases hs : sortCands (c :: rest) with
      | nil => simp [hs]
      | cons e tail =>
          have he : e ∈ candList t := by
            rw [hcl, ← mem_sortCands, hs]
            simp
          obtain ⟨⟨tc, v, src, htc, _, _⟩, pre, hpre⟩ := candList_inv t e he
          simp only [hs]
          rw [htc, hpre, optOrNone_orNone]
          refine ⟨by simp, by simp, by simp, fun _ => ⟨pre, rfl⟩⟩

/-- Witness for C3's inner implications at concrete inputs: a match-path input
whose content is a stripped prefix, and the no-match direction on a plain
text. -/
theorem c3_result_invariants_witness :
    (∃ pre, (extract_res ("x <|tool_call|>".toList ++
        "\x7b\"name\": \"t\", \"arguments\": \x7b\x7d\x7d".toList ++
        "<|tool_call_end|>".toList)).content = orNone (pyStrip pre)) ∧
    (extract_res "hi".toList).content = some "hi".toList := by
  refine ⟨(c3_result_invariants _).2.2.2 (by decide),
          (c3_result_invariants _).2.2.1 (by decide)⟩

/-- C3 counterexample to the claim as stated: on whitespace-only input the
no-match path returns the text itself, so `content` is present even though it
would be empty after trimming. -/
theorem c3_counterexample :
    extract_res " ".toList = ⟨false, [], some " ".toList⟩ ∧
      pyStrip " ".toList = [] := by decide

-- ### C1: ranking among the registered candidates

/-- C1 (amended): the returned call belongs to the earliest-starting candidate
among those the strategies actually register, and at equal offsets the first
registered wins — registration order being delimited-marker, then each fenced
block, then bare JSON.  (A bare-JSON match whose repaired text no longer
occurs verbatim in the original is dropped before registration, so a
validating substring need not yield a candidate at all.) -/
theorem c1_earliest_registered_wins (t : Str) (w : Cand)
    (h : selectEarliest (candList t) = some w) :
    extract_res t = ⟨true, w.toolCalls, optOrNone w.content⟩ ∧
    w ∈ candList t ∧ (∀ c ∈ candList t, w.start ≤ c.start) ∧
    ∃ l1 l2, candList t = l1 ++ w :: l2 ∧ ∀ x ∈ l1, w.start < x.start := by
  have hmin := selectEarliest_min h
  obtain ⟨l1, l2, hdec, hlt, _⟩ := selectEarliest_decomp h
  have hne : candList t ≠ [] := by
    intro hnil
    rw [hnil] at h
    simp [selectEarliest] at h
  refine ⟨?_, hmin.1, hmin.2, l1, l2, hdec, hlt⟩
  unfold extract_res extract_tool_calls
  rw [candidatesE_ok t]
  cases hcl : candList t with
  | nil => exact absurd hcl hne
  | cons c rest =>
      have hhead : (sortCands (c :: rest)).head? = some w := by
        rw [head?_sortCands, ← hcl, h]
      cases hs : sortCands (c :: rest) with
      | nil => rw [hs] at hhead; simp at hhead
      | cons e tail =>
          rw [hs] at hhead
          simp only [List.head?_cons, Option.some.injEq] at hhead
          subst hhead
          simp [hs]

/-- Witness for C1's amended theorem: with a delimited-marker candidate at
offset 2 and a bare-JSON candidate further right, the marker candidate wins. -/
theorem c1_earliest_registered_wins_witness :
    (extract_res wtnTwoCands).toolsCalled = true ∧
      (extract_res wtnTwoCands).content = optOrNone (some "x".toList) := by
  have h := c1_earliest_registered_wins wtnTwoCands
    ⟨2, [⟨"t".toList, [lbrace, rbrace]⟩], some "x".toList⟩ (by decide)
  exact ⟨by rw [h.1], by rw [h.1]⟩

/-- C1 counterexample to the claim as stated: both substrings validate after
repair, yet the extractor returns no call at all — the first substring's
repaired form is not a verbatim substring, so `str.find` fails and the
candidate is dropped, and the second is never reached because
`_find_json_in_text` stops at its first validating candidate. -/
theorem c1_counterexample :
    hasSub cexTwoJson cexTwoJsonSub1 = true ∧
    hasSub cexTwoJson cexTwoJsonSub2 = true ∧
    (parse_json_tool_call cexTwoJsonSub1).toOption =
      some [⟨"a".toList, "\x7b\"k\": 1\x7d".toList⟩] ∧
    (parse_json_tool_call cexTwoJsonSub2).toOption =
      some [⟨"b".toList, [lbrace, rbrace]⟩] ∧
    extract_res cexTwoJson = ⟨false, [], some cexTwoJson⟩ := by decide

-- ### C5: the repair schedule

/-- C5 (amended): the repairer applies its stages in the claimed order but
parses only twice — once after the cumulative first three stages and once
after the trailing-comma stage — and a candidate on which both parses fail is
rejected without raising. -/
theorem c5_two_parse_schedule (s : Str) :
    parse_json_tool_call s = Except.ok ((repairImpl s).getD []) := by
  unfold parse_json_tool_call repairImpl pyCatch loadsE
  cases loads (repairStage123 s) with
  | some v => rfl
  | none => cases loads (removeTrailingCommas (repairStage123 s)) <;> rfl

/-- C5 counterexample to the claim as stated: on this candidate the output of
stage 1 alone is already valid JSON, so a repairer that re-parses after each
stage succeeds (the spec-modelled `repairSpecStagewise` does), but the code
parses only after stage 3 has stripped the `//` inside the string and rejects
the candidate. -/
theorem c5_counterexample :
    loads (stripTrailFence (stripLeadFence (pyStrip cexStagewise))) ≠ none ∧
    (repairSpecStagewise cexStagewise).isSome = true ∧
    (parse_json_tool_call cexStagewise).toOption = some [] := by decide

-- ### C6: the brace scan is a fixed-depth approximation

theorem matchInner_spec {fuel : Nat} :
    ∀ {d : Nat} {s g r : Str}, matchInner fuel d s = some (g, r) →
      s = g ++ r ∧
      ∀ D cur tail, 1 ≤ cur → cur + d ≤ D →
        braceDepth D cur (g ++ tail) = braceDepth D (cur - 1) tail := by
  induction fuel with
  | zero => intro d s g r h; simp [matchInner] at h
  | succ fuel ih =>
      intro d s g r h
      match s with
      | [] => simp [matchInner] at h
      | c :: rest =>
          rw [matchInner.eq_def] at h
          dsimp only at h
          by_cases hc1 : c = rbrace
          · rw [if_pos hc1] at h
            simp only [Option.some.injEq, Prod.mk.injEq] at h
            obtain ⟨hg, hr⟩ := h
            subst hg; subst hr; subst hc1
            refine ⟨rfl, ?_⟩
            intro D cur tail hcur _
            match cur, hcur with
            | cur' + 1, _ =>
                simp [braceDepth]
                intro hfalse
                exact absurd hfalse (by decide)
          · rw [if_neg hc1] at h
            by_cases hc2 : c = lbrace
            · rw [if_pos hc2] at h
              match d with
              | 0 => simp at h
              | d' + 1 =>
                  dsimp only at h
                  cases h1 : matchInner fuel d' rest with
                  | none => rw [h1] at h; simp at h
                  | some p1 =>
                      obtain ⟨g1, rest'⟩ := p1
                      rw [h1] at h
                      dsimp only at h
                      cases h2 : matchInner fuel (d' + 1) rest' with
                      | none => rw [h2] at h; simp at h
                      | some p2 =>
                          obtain ⟨g2, rest''⟩ := p2
                          rw [h2] at h
                          simp only [Option.some.injEq, Prod.mk.injEq] at h
                          obtain ⟨hg, hr⟩ := h
                          subst hg; subst hr; subst hc2
                          obtain ⟨hs1, hb1⟩ := ih h1
                          obtain ⟨hs2, hb2⟩ := ih h2
                          subst hs1; subst hs2
                          refine ⟨by simp, ?_⟩
                          intro D cur tail hcur hle
                          simp only [List.cons_append, List.append_assoc,
                            List.append_eq, braceDepth, if_true]
                          rw [decide_eq_true (show cur + 1 ≤ D by omega)]
                          simp only [Bool.true_and]
                          rw [hb1 D (cur + 1) (g2 ++ tail) (by omega) (by omega)]
                          simp only [Nat.add_sub_cancel]
                          exact hb2 D cur tail hcur (by omega)
            · rw [if_neg hc2] at h
              cases h2 : matchInner fuel d rest with
              | none => rw [h2] at h; simp at h
              | some p2 =>
                  obtain ⟨g2, rest'⟩ := p2
                  rw [h2] at h
                  simp only [Option.some.injEq, Prod.mk.injEq] at h
                  obtain ⟨hg, hr⟩ := h
                  subst hg; subst hr
                  obtain ⟨hs2, hb2⟩ := ih h2
                  subst hs2
                  refine ⟨rfl, ?_⟩
                  intro D cur tail hcur hle
                  simp only [List.cons_append, braceDepth]
                  rw [if_neg hc2, if_neg hc1]
                  exact hb2 D cur tail hcur hle

theorem matchGroupAt_balanced {s g r : Str} (h : matchGroupAt s = some (g, r)) :
    balancedLe 3 g = true := by
  unfold matchGroupAt at h
  match s with
  | [] => simp at h
  | c :: rest =>
      dsimp only at h
      split at h
      · next hc =>
          cases h1 : matchInner (rest.length + 1) 2 rest with
          | none => rw [h1] at h; simp at h
          | some p =>
              obtain ⟨g1, r1⟩ := p
              rw [h1] at h
              simp only [Option.some.injEq, Prod.mk.injEq] at h
              obtain ⟨hg, hr⟩ := h
              subst hg; subst hr; subst hc
              obtain ⟨_, hb⟩ := matchInner_spec h1
              have hb1 := hb 3 1 [] (by omega) (by omega)
              unfold balancedLe
              simp only [List.isEmpty_cons, Bool.not_false, Bool.true_and]
              rw [braceDepth]
              rw [if_pos rfl, decide_eq_true (by omega)]
              simp only [Bool.true_and]
              rw [← List.append_nil g1]
              rw [hb1]
              rfl
      · simp at h

theorem findallBracesAux_from_match {fuel : Nat} :
    ∀ {s : Str} {g : Str}, g ∈ findallBracesAux fuel s →
      ∃ s' r, matchGroupAt s' = some (g, r) := by
  induction fuel with
  | zero => intro s g h; simp [findallBracesAux] at h
  | succ fuel ih =>
      intro s g h
      match s with
      | [] => simp [findallBracesAux] at h
      | c :: rest =>
          rw [findallBracesAux] at h
          cases hm : matchGroupAt (c :: rest) with
          | none => rw [hm] at h; exact ih h
          | some p =>
              obtain ⟨g1, r⟩ := p
              rw [hm] at h
              rcases List.mem_cons.mp h with hh | hh
              · subst hh; exact ⟨c :: rest, r, hm⟩
              · exact ih hh

/-- C6 (amended): every candidate the bare-JSON scan produces is a balanced
brace substring of nesting depth at most three — the regex is a fixed-depth
approximation, so deeper balanced tool calls are not found. -/
theorem c6_scan_depth_bounded (t g : Str) (h : g ∈ findallBraces t) :
    balancedLe 3 g = true := by
  obtain ⟨s', r, hm⟩ := findallBracesAux_from_match h
  exact matchGroupAt_balanced hm

/-- Witness for C6's amended theorem at a depth-three candidate. -/
theorem c6_scan_depth_bounded_witness :
    balancedLe 3 "\x7b\"a\": \x7b\"b\": \x7b\x7d\x7d\x7d".toList = true :=
  c6_scan_depth_bounded "\x7b\"a\": \x7b\"b\": \x7b\x7d\x7d\x7d".toList
    "\x7b\"a\": \x7b\"b\": \x7b\x7d\x7d\x7d".toList (by decide)

/-- C6 counterexample to the claim as stated: this text contains a balanced
substring of depth four that validates as a tool call, yet the bare-JSON
strategy finds nothing — the scan is depth-limited, not a full
balanced-brace matcher. -/
theorem c6_counterexample :
    hasSub cexDeep cexDeepSub = true ∧
    balancedLe 4 cexDeepSub = true ∧
    balancedLe 3 cexDeepSub = false ∧
    (parse_json_tool_call cexDeepSub).toOption =
      some [⟨"t".toList, "\x7b\"a\": \x7b\"b\": \x7b\"c\": 1\x7d\x7d\x7d".toList⟩] ∧
    find_json_in_text cexDeep = none ∧
    extract_res cexDeep = ⟨false, [], some cexDeep⟩ := by decide

-- ### C4: when the repair stages fix a text, and when they corrupt it

theorem findSubAux_isSome (pat : Str) (s : Str) (i j : Nat) :
    (findSubAux pat s i).isSome = (findSubAux pat s j).isSome := by
  induction s generalizing i j with
  | nil => rw [findSubAux, findSubAux]; split <;> simp
  | cons c rest ih =>
      rw [findSubAux, findSubAux]
      split
      · simp
      · simp only [Option.isSome]
        exact ih (i + 1) (j + 1)

theorem hasSub_cons {c : Char} {rest pat : Str} :
    hasSub (c :: rest) pat = (begins (c :: rest) pat || hasSub rest pat) := by
  unfold hasSub findSub
  rw [findSubAux]
  split
  · next hb => simp [hb]
  · next hb =>
      simp [hb]
      exact findSubAux_isSome pat rest 1 0

theorem begins_hasSub {s pat : Str} (h : begins s pat = true) : hasSub s pat = true := by
  cases s with
  | nil =>
      cases pat with
      | nil => rfl
      | cons d ds => simp [begins] at h
  | cons c rest => rw [hasSub_cons, h]; rfl

theorem removeCommentsAux_id {fuel : Nat} :
    ∀ {s : Str}, hasSub s ['/', '/'] = false → removeCommentsAux fuel s = s := by
  induction fuel with
  | zero => intro s _; rfl
  | succ fuel ih =>
      intro s h
      cases s with
      | nil => rfl
      | cons c rest =>
          have hsplit := Bool.or_eq_false_iff.mp (hasSub_cons ▸ h)
          rw [removeCommentsAux, if_neg (by simp [hsplit.1]), ih hsplit.2]

theorem removeTrailingCommasAux_id :
    ∀ {fuel : Nat} {s : Str}, hasCommaCloserAux fuel s = false →
      removeTrailingCommasAux fuel s = s := by
  intro fuel
  induction fuel with
  | zero => intro s _; rfl
  | succ fuel ih =>
      intro s h
      cases s with
      | nil => rfl
      | cons c0 rest =>
          rw [hasCommaCloserAux] at h
          rw [removeTrailingCommasAux]
          by_cases hc : c0 = ','
          · rw [if_pos hc] at h ⊢
            generalize hdw : rest.dropWhile pyIsSpace = dw at h ⊢
            cases dw with
            | nil => rfl
            | cons c after =>
                dsimp only at h ⊢
                by_cases hcl : (decide (c = rbrace) || decide (c = ']')) = true
                · rw [if_pos hcl] at h; simp at h
                · rw [if_neg hcl] at h ⊢
                  rw [ih h]
                  simp only [List.cons.injEq, true_and]
                  conv_rhs => rw [← @List.takeWhile_append_dropWhile _ pyIsSpace rest]
                  rw [hdw]
          · rw [if_neg hc] at h ⊢
            rw [ih h]

theorem begins_mem {a : Char} : ∀ {pat s : Str},
    begins s pat = true → a ∈ pat → a ∈ s := by
  intro pat
  induction pat with
  | nil => intro s _ ha; simp at ha
  | cons d ds ih =>
      intro s hb ha
      cases s with
      | nil => simp [begins] at hb
      | cons c cs =>
          simp only [begins, Bool.and_eq_true, decide_eq_true_eq] at hb
          rcases List.mem_cons.mp ha with ha | ha
          · subst ha; rw [← hb.1]; simp
          · exact List.mem_cons_of_mem c (ih hb.2 ha)

theorem not_mem_of_contains_false {s : Str} {a : Char}
    (h : s.contains a = false) : a ∉ s := by
  intro hmem
  have ht : s.contains a = true := List.elem_iff.mpr hmem
  rw [ht] at h
  exact Bool.true_eq_false.mp h

theorem contains_false_tail {c : Char} {rest : Str} {a : Char}
    (h : (c :: rest).contains a = false) : rest.contains a = false := by
  cases hr : rest.contains a
  · rfl
  · have := not_mem_of_contains_false h
      (List.mem_cons_of_mem c (List.elem_iff.mp hr))
    simp at this

theorem quoteKeysAux_id {fuel : Nat} :
    ∀ {s : Str}, s.contains '\x27' = false → quoteKeysAux fuel s = s := by
  induction fuel with
  | zero => intro s _; rfl
  | succ fuel ih =>
      intro s h
      cases s with
      | nil => rfl
      | cons c rest =>
          rw [quoteKeysAux]
          have hc : ¬ c = '\x27' := by
            intro hic
            exact not_mem_of_contains_false h (by rw [hic]; simp)
          rw [if_neg hc, ih (contains_false_tail h)]

theorem quoteValsAux_id {fuel : Nat} :
    ∀ {s : Str}, s.contains '\x27' = false → quoteValsAux fuel s = s := by
  induction fuel with
  | zero => intro s _; rfl
  | succ fuel ih =>
      intro s h
      cases s with
      | nil => rfl
      | cons c rest =>
          rw [quoteValsAux]
          have hb : ¬ begins (c :: rest) [':', ' ', '\x27'] = true := by
            intro hbt
            exact not_mem_of_contains_false h (begins_mem hbt (by simp))
          rw [if_neg hb, ih (contains_false_tail h)]

theorem quoteArrsAux_id {fuel : Nat} :
    ∀ {s : Str}, s.contains '\x27' = false → quoteArrsAux fuel s = s := by
  induction fuel with
  | zero => intro s _; rfl
  | succ fuel ih =>
      intro s h
      cases s with
      | nil => rfl
      | cons c rest =>
          rw [quoteArrsAux]
          have hb : ¬ begins (c :: rest) ['[', '\x27'] = true := by
            intro hbt
            exact not_mem_of_contains_false h (begins_mem hbt (by simp))
          rw [if_neg hb, ih (contains_false_tail h)]

theorem hasSub_of_suffix {x s pat : Str} (hsuf : x <:+ s)
    (h : hasSub x pat = true) : hasSub s pat = true := by
  obtain ⟨pre, hpre⟩ := hsuf
  subst hpre
  induction pre with
  | nil => exact h
  | cons c cs ih => rw [List.cons_append, hasSub_cons, ih]; simp

theorem stripLeadFence_id {s : Str} (h : hasSub s ['`', '`', '`'] = false) :
    stripLeadFence s = s := by
  unfold stripLeadFence
  dsimp only
  split
  · next hb =>
      have := hasSub_of_suffix (List.dropWhile_suffix pyIsSpace) (begins_hasSub hb)
      rw [this] at h
      simp at h
  · rfl

theorem stripTrailFence_id : ∀ {s : Str},
    hasSub s ['`', '`', '`'] = false → stripTrailFence s = s := by
  intro s
  induction s with
  | nil => intro _; rfl
  | cons c rest ih =>
      intro h
      have hsplit := Bool.or_eq_false_iff.mp (hasSub_cons ▸ h)
      rw [stripTrailFence, if_neg (by simp [hsplit.1]), ih hsplit.2]

/-- C4 (amended): already-valid JSON on which none of the rewrite patterns can
fire — no apostrophe, no `//`, no triple backtick, no comma whose next
non-whitespace character closes a brace or bracket, no surrounding whitespace —
is left unchanged by every repair stage, and the repaired parse yields the very
value the original text denotes.  (The counterexample shows the restriction is
necessary: a stage can corrupt valid JSON whose string literals contain its
pattern.) -/
theorem c4_repair_fixes_clean_valid_json (s : Str) (v : Json)
    (hv : loads s = some v) (hstrip : pyStrip s = s)
    (hapos : s.contains '\x27' = false)
    (hcmt : hasSub s ['/', '/'] = false)
    (hfence : hasSub s ['`', '`', '`'] = false)
    (hcomma : hasCommaCloser s = false) :
    stripLeadFence s = s ∧ stripTrailFence s = s ∧
    quoteKeys s = s ∧ quoteVals s = s ∧ quoteArrs s = s ∧
    removeComments s = s ∧ removeTrailingCommas s = s ∧
    repairStage123 s = s ∧
    parse_json_tool_call s = Except.ok (validateAndConvert v) := by
  have h1 := stripLeadFence_id hfence
  have h2 := stripTrailFence_id hfence
  have h3 : quoteKeys s = s := quoteKeysAux_id hapos
  have h4 : quoteVals s = s := quoteValsAux_id hapos
  have h5 : quoteArrs s = s := quoteArrsAux_id hapos
  have h6 : removeComments s = s := removeCommentsAux_id hcmt
  have h7 : removeTrailingCommas s = s := removeTrailingCommasAux_id hcomma
  have h8 : repairStage123 s = s := by
    unfold repairStage123
    dsimp only
    rw [hstrip, h1, h2, hapos]
    simp only [Bool.false_eq_true, if_false]
    exact h6
  refine ⟨h1, h2, h3, h4, h5, h6, h7, h8, ?_⟩
  unfold parse_json_tool_call pyCatch loadsE
  rw [h8, hv]

/-- Witness for C4's amended theorem at a clean valid tool call. -/
theorem c4_repair_fixes_clean_valid_json_witness :
    repairStage123 "\x7b\"name\": \"a\", \"arguments\": \x7b\x7d\x7d".toList =
      "\x7b\"name\": \"a\", \"arguments\": \x7b\x7d\x7d".toList ∧
    parse_json_tool_call "\x7b\"name\": \"a\", \"arguments\": \x7b\x7d\x7d".toList =
      Except.ok (validateAndConvert (Json.obj
        (.cons "name".toList (.str "a".toList)
          (.cons "arguments".toList (.obj .nil) .nil)))) := by
  have h := c4_repair_fixes_clean_valid_json
    "\x7b\"name\": \"a\", \"arguments\": \x7b\x7d\x7d".toList
    (Json.obj (.cons "name".toList (.str "a".toList)
      (.cons "arguments".toList (.obj .nil) .nil)))
    (by decide) (by decide) (by decide) (by decide) (by decide) (by decide)
  exact ⟨h.2.2.2.2.2.2.2.1, h.2.2.2.2.2.2.2.2⟩

/-- C4 counterexample to the claim as stated: this text is already valid JSON
(a tool call whose name contains `//`), yet the comment-removal stage alters
it, and the full repair pipeline then rejects it instead of returning the
original parsed value. -/
theorem c4_counterexample :
    (loads cexCommentJson).isSome = true ∧
    removeComments cexCommentJson ≠ cexCommentJson ∧
    (parse_json_tool_call cexCommentJson).toOption = some [] := by decide

-- ### C9: the streaming two-newline rule (spec-modelled tracker against the
-- repository's streaming test vectors)

theorem begins_nil (s : Str) : begins s [] = true := by
  cases s <;> rfl

theorem begins_append_left : ∀ {pat a : Str} (b : Str),
    begins a pat = true → begins (a ++ b) pat = true := by
  intro pat
  induction pat with
  | nil => intro a b _; exact begins_nil _
  | cons d ds ih =>
      intro a b h
      cases a with
      | nil => simp [begins] at h
      | cons c cs =>
          simp only [begins, Bool.and_eq_true] at h
          simp only [List.cons_append, begins, Bool.and_eq_true]
          exact ⟨h.1, ih b h.2⟩

theorem splitFirst_front {m a : Str} (b : Str) (hm : m ≠ [])
    (h : begins a m = true) (hlen : m.length ≤ a.length) :
    splitFirst m (a ++ b) = some ([], a.drop m.length ++ b) := by
  unfold splitFirst
  cases a with
  | nil =>
      cases m with
      | nil => exact absurd rfl hm
      | cons d ds => simp [begins] at h
  | cons c cs =>
      rw [List.cons_append, scanUntil]
      have hb : begins (c :: (cs ++ b)) m = true := by
        have := begins_append_left b h
        rwa [List.cons_append] at this
      rw [if_pos hb, ← List.cons_append, List.drop_append_of_le_length hlen]

theorem stripTwoNl_of_head_ne {f : Str} (hf : f.head? ≠ some '\n') :
    stripTwoNl f = f := by
  cases f with
  | nil => rfl
  | cons c rest =>
      rw [stripTwoNl.eq_def]
      split
      · next heq =>
          rw [List.cons.injEq] at heq
          exact absurd (by simp [heq.1]) hf
      · rfl

theorem stripTwoNl_single {f : Str} (hf : f.head? ≠ some '\n') :
    stripTwoNl ('\n' :: f) = '\n' :: f := by
  cases f with
  | nil => rfl
  | cons c rest =>
      rw [stripTwoNl.eq_def]
      split
      · next heq =>
          rw [List.cons.injEq, List.cons.injEq] at heq
          exact absurd (by simp [heq.2.1]) hf
      · rfl

/-- C9: exactly two contiguous leading newlines after the end-of-reasoning
marker are stripped from the emitted content, once per boundary crossing:
(i) with the marker and both newlines in one delta the remainder is emitted
bare; (ii) with the newlines arriving in the delta after the marker they are
stripped there; (iii) a single leading newline is preserved; (iv) with no
newline nothing is stripped.  Token ids and texts follow the repository's
streaming test. -/
theorem c9_streaming_newline_rule :
    (∀ f : Str,
      extract_reasoning_content_streaming "</think>".toList 1001
        "<think>Reasoning".toList ("<think>Reasoning</think>\n\n".toList ++ f)
        ("</think>\n\n".toList ++ f)
        [1000, 200] [1000, 200, 1001, 300, 400] [1001, 300, 400] =
      some ⟨some [], if f = [] then none else some f⟩) ∧
    (∀ f : Str,
      extract_reasoning_content_streaming "</think>".toList 1001
        "<think>Reasoning</think>".toList ("<think>Reasoning</think>\n\n".toList ++ f)
        ("\n\n".toList ++ f)
        [1000, 200, 1001] [1000, 200, 1001, 300, 400] [300, 400] =
      some ⟨none, some f⟩) ∧
    (∀ f : Str, f.head? ≠ some '\n' →
      extract_reasoning_content_streaming "</think>".toList 1001
        "<think>Reasoning".toList ("<think>Reasoning</think>\n".toList ++ f)
        ("</think>\n".toList ++ f)
        [1000, 200] [1000, 200, 1001, 300, 500] [1001, 300, 500] =
      some ⟨some [], some ('\n' :: f)⟩) ∧
    (∀ f : Str, f.head? ≠ some '\n' →
      extract_reasoning_content_streaming "</think>".toList 1001
        "<think>Reasoning".toList ("<think>Reasoning</think>".toList ++ f)
        ("</think>".toList ++ f)
        [1000, 200] [1000, 200, 1001, 500] [1001, 500] =
      some ⟨some [], if f = [] then none else some f⟩) := by
  refine ⟨?_, ?_, ?_, ?_⟩
  · intro f
    unfold extract_reasoning_content_streaming
    rw [if_neg (by decide), if_neg (by decide)]
    rw [show ("</think>\n\n".toList ++ f) = ("</think>".toList ++ ('\n' :: '\n' :: f))
        by simp]
    rw [splitFirst_front _ (by decide) (by decide) (by simp)]
    dsimp only
    rw [show List.drop "</think>".toList.length "</think>".toList = ([] : Str) from by decide]
    simp only [List.nil_append]
    rw [show stripTwoNl ('\n' :: '\n' :: f) = f from rfl]
  · intro f
    unfold extract_reasoning_content_streaming
    rw [if_neg (by decide), if_pos (by decide)]
    dsimp only
    rw [show splitFirst "</think>".toList "<think>Reasoning</think>".toList =
      some ("<think>Reasoning".toList, []) from by decide]
    dsimp only
    rw [if_pos (by decide)]
    rw [show ("\n\n".toList ++ f) = '\n' :: '\n' :: f by simp]
    rw [show stripTwoNl ('\n' :: '\n' :: f) = f from rfl]
  · intro f hf
    unfold extract_reasoning_content_streaming
    rw [if_neg (by decide), if_neg (by decide)]
    rw [show ("</think>\n".toList ++ f) = ("</think>".toList ++ ('\n' :: f)) by simp]
    rw [splitFirst_front _ (by decide) (by decide) (by simp)]
    dsimp only
    rw [show List.drop "</think>".toList.length "</think>".toList = ([] : Str) from by decide]
    simp only [List.nil_append]
    rw [stripTwoNl_single hf]
    rfl
  · intro f hf
    unfold extract_reasoning_content_streaming
    rw [if_neg (by decide), if_neg (by decide)]
    rw [show ("</think>".toList ++ f) = ("</think>".toList ++ (f ++ [])) by simp]
    rw [splitFirst_front _ (by decide) (by decide) (by simp)]
    dsimp only
    rw [show List.drop "</think>".toList.length "</think>".toList = ([] : Str) from by decide]
    simp only [List.nil_append, List.append_nil]
    rw [stripTwoNl_of_head_ne hf]

-- ### C7: a mapping-valued "arguments" field round-trips through
-- `json.dumps` / `json.loads`

theorem hexVal_toHexDigit {d : Nat} (h : d < 16) : hexVal (toHexDigit d) = some d := by
  interval_cases d <;> decide

theorem escapeChar_ne_nil (c : Char) : escapeChar c ≠ [] := by
  unfold escapeChar
  split_ifs <;> simp

theorem escapeStr_length_ge (s : Str) : s.length ≤ (escapeStr s).length := by
  induction s with
  | nil => simp [escapeStr]
  | cons c rest ih =>
      rw [escapeStr, List.length_append, List.length_cons]
      have := List.length_pos.mpr (escapeChar_ne_nil c)
      omega

theorem char_valid_nat (c : Char) :
    c.toNat < 0xd800 ∨ (0xdfff < c.toNat ∧ c.toNat < 0x110000) := by
  have h := c.valid
  unfold UInt32.isValidChar Nat.isValidChar at h
  exact h

theorem parseStringBodyAux_simpleEscape {f : Nat} {e c : Char} {X : Str}
    (he : simpleEscape e = some c) (hne : ¬ e = 'u') :
    parseStringBodyAux (f + 1) ('\\' :: e :: X) = consFst c (parseStringBodyAux f X) := by
  rw [parseStringBodyAux.eq_def]
  dsimp only
  rw [if_neg (by decide), if_pos rfl]
  rw [if_neg hne, he]

theorem parseStringBodyAux_raw {f : Nat} {c : Char} {X : Str}
    (h1 : ¬ c = '"') (h2 : ¬ c = '\\') (h3 : ¬ c.toNat < 0x20) :
    parseStringBodyAux (f + 1) (c :: X) = consFst c (parseStringBodyAux f X) := by
  rw [parseStringBodyAux.eq_def]
  dsimp only
  rw [if_neg h1, if_neg h2, if_neg h3]

theorem parseStringBodyAux_hex {f : Nat} {n : Nat} {X : Str}
    (hn : n < 0x10000) (hnotsur : ¬ (0xd800 ≤ n ∧ n < 0xdc00)) :
    parseStringBodyAux (f + 1) (('\\' :: 'u' :: hex4 n) ++ X) =
      consFst (Char.ofNat n) (parseStringBodyAux f X) := by
  rw [show hex4 n = [toHexDigit (n / 0x1000 % 0x10), toHexDigit (n / 0x100 % 0x10),
      toHexDigit (n / 0x10 % 0x10), toHexDigit (n % 0x10)] from rfl]
  simp only [List.cons_append, List.nil_append]
  rw [parseStringBodyAux.eq_def]
  dsimp only
  rw [if_neg (by decide), if_pos rfl]
  rw [if_pos rfl]
  rw [hexVal_toHexDigit (by omega), hexVal_toHexDigit (by omega),
      hexVal_toHexDigit (by omega), hexVal_toHexDigit (by omega)]
  dsimp only
  rw [show ((n / 0x1000 % 0x10 * 0x10 + n / 0x100 % 0x10) * 0x10 + n / 0x10 % 0x10) * 0x10 +
      n % 0x10 = n from by omega]
  rw [if_neg (by simp only [Bool.and_eq_true, decide_eq_true_eq]; exact hnotsur)]

theorem lowSurrogate_hex4 {m : Nat} {X : Str} (hlo : 0xdc00 ≤ m ∧ m < 0xe000) :
    lowSurrogate ('\\' :: 'u' :: (hex4 m ++ X)) = some (m, X) := by
  rw [show hex4 m = [toHexDigit (m / 0x1000 % 0x10), toHexDigit (m / 0x100 % 0x10),
      toHexDigit (m / 0x10 % 0x10), toHexDigit (m % 0x10)] from rfl]
  simp only [List.cons_append, List.nil_append]
  rw [lowSurrogate]
  rw [hexVal_toHexDigit (by omega), hexVal_toHexDigit (by omega),
      hexVal_toHexDigit (by omega), hexVal_toHexDigit (by omega)]
  dsimp only
  rw [show ((m / 0x1000 % 0x10 * 0x10 + m / 0x100 % 0x10) * 0x10 + m / 0x10 % 0x10) * 0x10 +
      m % 0x10 = m from by omega]
  rw [if_pos (by simp only [Bool.and_eq_true, decide_eq_true_eq]; exact hlo)]

theorem parseStringBodyAux_hexPair {f : Nat} {n m : Nat} {X : Str}
    (hhi : 0xd800 ≤ n ∧ n < 0xdc00) (hlo : 0xdc00 ≤ m ∧ m < 0xe000) :
    parseStringBodyAux (f + 1)
        ('\\' :: 'u' :: (hex4 n ++ ('\\' :: 'u' :: (hex4 m ++ X)))) =
      consFst (Char.ofNat (0x10000 + (n - 0xd800) * 0x400 + (m - 0xdc00)))
        (parseStringBodyAux f X) := by
  rw [show hex4 n = [toHexDigit (n / 0x1000 % 0x10), toHexDigit (n / 0x100 % 0x10),
      toHexDigit (n / 0x10 % 0x10), toHexDigit (n % 0x10)] from rfl]
  simp only [List.cons_append, List.nil_append]
  rw [parseStringBodyAux.eq_def]
  dsimp only
  rw [if_neg (by decide), if_pos rfl]
  rw [if_pos rfl]
  rw [hexVal_toHexDigit (by omega), hexVal_toHexDigit (by omega),
      hexVal_toHexDigit (by omega), hexVal_toHexDigit (by omega)]
  dsimp only
  rw [show ((n / 0x1000 % 0x10 * 0x10 + n / 0x100 % 0x10) * 0x10 + n / 0x10 % 0x10) * 0x10 +
      n % 0x10 = n from by omega]
  rw [if_pos (by simp only [Bool.and_eq_true, decide_eq_true_eq]; exact hhi)]
  rw [lowSurrogate_hex4 hlo]

theorem parseStringBodyAux_escapeChar {f : Nat} {c : Char} {X : Str} :
    parseStringBodyAux (f + 1) (escapeChar c ++ X) =
      consFst c (parseStringBodyAux f X) := by
  have hval := char_valid_nat c
  unfold escapeChar
  split_ifs with h1 h2 h3 h4 h5 h6 h7 h8 h9
  · subst h1; exact parseStringBodyAux_simpleEscape (by decide) (by decide)
  · subst h2; exact parseStringBodyAux_simpleEscape (by decide) (by decide)
  · subst h3; exact parseStringBodyAux_simpleEscape (by decide) (by decide)
  · subst h4; exact parseStringBodyAux_simpleEscape (by decide) (by decide)
  · subst h5; exact parseStringBodyAux_simpleEscape (by decide) (by decide)
  · subst h6; exact parseStringBodyAux_simpleEscape (by decide) (by decide)
  · subst h7; exact parseStringBodyAux_simpleEscape (by decide) (by decide)
  · simp only [Bool.and_eq_true, decide_eq_true_eq] at h8
    exact parseStringBodyAux_raw h1 h2 (by omega)
  · have := @parseStringBodyAux_hex f c.toNat X h9
      (by simp only [Bool.and_eq_true, decide_eq_true_eq, not_and, not_lt] at h8; omega)
    rw [this, Char.ofNat_toNat]
  · have hrange : 0x10000 ≤ c.toNat ∧ c.toNat < 0x110000 := by
      simp only [not_lt] at h9
      rcases hval with hlt | ⟨_, hub⟩
      · omega
      · exact ⟨h9, hub⟩
    simp only [List.cons_append, List.append_assoc]
    have hhi : 0xd800 ≤ 0xd800 + (c.toNat - 0x10000) / 0x400 ∧
        0xd800 + (c.toNat - 0x10000) / 0x400 < 0xdc00 := by
      constructor
      · omega
      · have : (c.toNat - 0x10000) / 0x400 < 0x400 := by omega
        omega
    have hlo : 0xdc00 ≤ 0xdc00 + (c.toNat - 0x10000) % 0x400 ∧
        0xdc00 + (c.toNat - 0x10000) % 0x400 < 0xe000 := by
      constructor
      · omega
      · have : (c.toNat - 0x10000) % 0x400 < 0x400 := Nat.mod_lt _ (by omega)
        omega
    rw [parseStringBodyAux_hexPair hhi hlo]
    rw [show 0x10000 + (0xd800 + (c.toNat - 0x10000) / 0x400 - 0xd800) * 0x400 +
        (0xdc00 + (c.toNat - 0x10000) % 0x400 - 0xdc00) = c.toNat from by omega]
    rw [Char.ofNat_toNat]

theorem parseStringBodyAux_escape (s : Str) : ∀ {f : Nat} (rest : Str),
    s.length + 1 ≤ f →
    parseStringBodyAux f (escapeStr s ++ '"' :: rest) = some (s, rest) := by
  induction s with
  | nil =>
      intro f rest hf
      match f, hf with
      | f + 1, _ =>
          rw [escapeStr, List.nil_append, parseStringBodyAux.eq_def]
          dsimp only
          rw [if_pos rfl]
  | cons c cs ih =>
      intro f rest hf
      match f, hf with
      | f + 1, hf =>
          rw [escapeStr, List.append_assoc, parseStringBodyAux_escapeChar]
          rw [ih rest (by simp only [List.length_cons] at hf; omega)]
          rfl

theorem parseStringBody_escape (s : Str) (rest : Str) :
    parseStringBody (escapeStr s ++ '"' :: rest) = some (s, rest) := by
  unfold parseStringBody
  refine parseStringBodyAux_escape s rest ?_
  have := escapeStr_length_ge s
  simp only [List.length_append, List.length_cons]
  omega

/-- A next character that cannot extend a number literal. -/
def numSep (r : Str) : Bool :=
  match r with
  | [] => true
  | c :: _ => !(isDigit c || c = '.' || c = 'e' || c = 'E' || c = '+' || c = '-')

theorem numSep_head {c : Char} {t : Str} (h : numSep (c :: t) = true) :
    isDigit c = false ∧ c ≠ '.' ∧ c ≠ 'e' ∧ c ≠ 'E' ∧ c ≠ '+' ∧ c ≠ '-' := by
  unfold numSep at h
  simp only [Bool.not_eq_true', Bool.or_eq_false_iff, decide_eq_false_iff_not] at h
  tauto

theorem numSep_takeWhile {r : Str} (h : numSep r = true) : r.takeWhile isDigit = [] := by
  cases r with
  | nil => rfl
  | cons c t =>
      rw [List.takeWhile_cons_of_neg]
      simp [(numSep_head h).1]

theorem takeWhile_nil_dropWhile {p : Char → Bool} {r : Str} (h : r.takeWhile p = []) :
    r.dropWhile p = r := by
  cases r with
  | nil => rfl
  | cons c t =>
      by_cases hc : p c
      · rw [List.takeWhile_cons_of_pos hc] at h; cases h
      · rw [List.dropWhile_cons_of_neg hc]

theorem takeWhile_full_dropWhile {p : Char → Bool} {l : Str} (h : l.takeWhile p = l) :
    l.dropWhile p = [] := by
  have h2 := @List.takeWhile_append_dropWhile _ p l
  rw [h] at h2
  have := congrArg List.length h2
  simp only [List.length_append] at this
  exact List.eq_nil_of_length_eq_zero (by omega)

theorem takeWhile_full_append {p : Char → Bool} {xs r : Str} (hx : xs.takeWhile p = xs)
    (hr : r.takeWhile p = []) :
    (xs ++ r).takeWhile p = xs ∧ (xs ++ r).dropWhile p = r := by
  constructor
  · rw [List.takeWhile_append, if_pos (by rw [hx]), hr, List.append_nil]
  · rw [List.dropWhile_append, takeWhile_full_dropWhile hx]
    simp [takeWhile_nil_dropWhile hr]

theorem takeWhile_part_append {p : Char → Bool} {xs r : Str}
    (hx : ¬ (xs.takeWhile p).length = xs.length) :
    (xs ++ r).takeWhile p = xs.takeWhile p ∧
      (xs ++ r).dropWhile p = xs.dropWhile p ++ r := by
  have hne : ¬ (xs.dropWhile p).isEmpty = true := by
    simp only [List.isEmpty_iff]
    intro hnil
    apply hx
    have h2 := @List.takeWhile_append_dropWhile _ p xs
    rw [hnil, List.append_nil] at h2
    rw [h2]
  constructor
  · rw [List.takeWhile_append, if_neg hx]
  · rw [List.dropWhile_append, if_neg hne]

theorem numFracPart_extend {s p t r : Str} (h : numFracPart s = (p, t))
    (hr : numSep r = true) : numFracPart (s ++ r) = (p, t ++ r) := by
  cases s with
  | nil =>
      rw [numFracPart] at h
      injection h with h1 h2
      subst h1; subst h2
      simp only [List.nil_append]
      cases r with
      | nil => rfl
      | cons c t2 =>
          rw [numFracPart, if_neg (numSep_head hr).2.1]
  | cons c rest =>
      by_cases hc : c = '.'
      · subst hc
        rw [numFracPart, if_pos rfl] at h
        dsimp only at h
        simp only [List.cons_append]
        rw [numFracPart, if_pos rfl]
        dsimp only
        by_cases hds : rest.takeWhile isDigit = []
        · rw [if_pos hds] at h
          injection h with h1 h2
          subst h1; subst h2
          have hds2 : (rest ++ r).takeWhile isDigit = [] := by
            rw [List.takeWhile_append]
            split_ifs with hlen
            · rw [hds] at hlen
              simp only [List.length_nil] at hlen
              have : rest = [] := List.eq_nil_of_length_eq_zero hlen.symm
              subst this
              simp [numSep_takeWhile hr]
            · exact hds
          rw [if_pos hds2]
          simp
        · rw [if_neg hds] at h
          injection h with h1 h2
          subst h1; subst h2
          by_cases hfull : (rest.takeWhile isDigit).length = rest.length
          · have hx : rest.takeWhile isDigit = rest :=
              (List.takeWhile_prefix _).eq_of_length hfull
            obtain ⟨htw, hdw⟩ := takeWhile_full_append hx (numSep_takeWhile hr)
            rw [htw, hdw, if_neg (by rw [hx] at hds; exact hds)]
            rw [hx, takeWhile_full_dropWhile hx]
            simp
          · obtain ⟨htw, hdw⟩ := @takeWhile_part_append isDigit rest r hfull
            rw [htw, hdw, if_neg hds]
      · rw [numFracPart, if_neg hc] at h
        injection h with h1 h2
        subst h1; subst h2
        simp only [List.cons_append]
        rw [numFracPart, if_neg hc]

theorem numExpPart_extend {s p t r : Str} (h : numExpPart s = (p, t))
    (hr : numSep r = true) : numExpPart (s ++ r) = (p, t ++ r) := by
  cases s with
  | nil =>
      rw [numExpPart.eq_def] at h
      dsimp only at h
      injection h with h1 h2
      subst h1; subst h2
      simp only [List.nil_append]
      cases r with
      | nil => rfl
      | cons c t2 =>
          have hcond : ¬ (c = 'e' || c = 'E') = true := by
            simp only [Bool.or_eq_true, decide_eq_true_eq]
            push_neg
            exact ⟨(numSep_head hr).2.2.1, (numSep_head hr).2.2.2.1⟩
          rw [numExpPart.eq_def]
          dsimp only
          rw [if_neg hcond]
  | cons c rest =>
      by_cases hc : (c = 'e' || c = 'E') = true
      · rw [numExpPart.eq_def] at h
        dsimp only at h
        rw [if_pos hc] at h
        simp only [List.cons_append]
        rw [numExpPart.eq_def]
        dsimp only
        rw [if_pos hc]
        cases rest with
        | nil =>
            dsimp only at h
            injection h with h1 h2
            subst h1; subst h2
            simp only [List.nil_append]
            cases r with
            | nil => simp
            | cons d t2 =>
                have hd : ¬ (d = '+' || d = '-') = true := by
                  simp only [Bool.or_eq_true, decide_eq_true_eq]
                  push_neg
                  exact ⟨(numSep_head hr).2.2.2.2.1, (numSep_head hr).2.2.2.2.2⟩
                have hds : (d :: t2).takeWhile isDigit = [] := numSep_takeWhile hr
                dsimp only
                rw [if_neg hd, hds, if_pos rfl]
                simp
        | cons d rest2 =>
            dsimp only at h
            simp only [List.cons_append]
            by_cases hd : (d = '+' || d = '-') = true
            · rw [if_pos hd] at h ⊢
              by_cases hds : rest2.takeWhile isDigit = []
              · rw [hds, if_pos rfl] at h
                injection h with h1 h2
                subst h1; subst h2
                have hds2 : (rest2 ++ r).takeWhile isDigit = [] := by
                  rw [List.takeWhile_append]
                  split_ifs with hlen
                  · rw [hds] at hlen
                    simp only [List.length_nil] at hlen
                    have : rest2 = [] := List.eq_nil_of_length_eq_zero hlen.symm
                    subst this
                    simp [numSep_takeWhile hr]
                  · exact hds
                rw [hds2, if_pos rfl]
                simp
              · rw [if_neg hds] at h
                injection h with h1 h2
                subst h1; subst h2
                by_cases hfull : (rest2.takeWhile isDigit).length = rest2.length
                · have hx : rest2.takeWhile isDigit = rest2 :=
                    (List.takeWhile_prefix _).eq_of_length hfull
                  obtain ⟨htw, hdw⟩ := takeWhile_full_append hx (numSep_takeWhile hr)
                  rw [htw, hdw, if_neg (by rw [hx] at hds; exact hds)]
                  rw [hx, takeWhile_full_dropWhile hx]
                  simp
                · obtain ⟨htw, hdw⟩ := @takeWhile_part_append isDigit rest2 r hfull
                  rw [htw, hdw, if_neg hds]
            · rw [if_neg hd] at h ⊢
              by_cases hds : ((d :: rest2).takeWhile isDigit) = []
              · rw [hds, if_pos rfl] at h
                injection h with h1 h2
                subst h1; subst h2
                have hds2 : ((d :: rest2) ++ r).takeWhile isDigit = [] := by
                  rw [List.takeWhile_append]
                  split_ifs with hlen
                  · rw [hds] at hlen
                    simp at hlen
                  · exact hds
                rw [show d :: (rest2 ++ r) = (d :: rest2) ++ r from rfl, hds2, if_pos rfl]
                simp
              · rw [if_neg hds] at h
                injection h with h1 h2
                subst h1; subst h2
                by_cases hfull : ((d :: rest2).takeWhile isDigit).length = (d :: rest2).length
                · have hx : (d :: rest2).takeWhile isDigit = d :: rest2 :=
                    (List.takeWhile_prefix _).eq_of_length hfull
                  obtain ⟨htw, hdw⟩ := takeWhile_full_append hx (numSep_takeWhile hr)
                  rw [show d :: (rest2 ++ r) = (d :: rest2) ++ r from rfl]
                  rw [htw, hdw, if_neg (by rw [hx] at hds; exact hds)]
                  rw [hx, takeWhile_full_dropWhile hx]
                  simp
                · obtain ⟨htw, hdw⟩ := @takeWhile_part_append isDigit (d :: rest2) r hfull
                  rw [show d :: (rest2 ++ r) = (d :: rest2) ++ r from rfl]
                  rw [htw, hdw, if_neg hds]
      · rw [numExpPart.eq_def] at h
        dsimp only at h
        rw [if_neg hc] at h
        injection h with h1 h2
        subst h1; subst h2
        simp only [List.cons_append]
        rw [numExpPart.eq_def]
        dsimp only
        rw [if_neg hc]

theorem digits_split_extend {xs r : Str} (hr : numSep r = true) :
    (xs ++ r).takeWhile isDigit = xs.takeWhile isDigit ∧
      (xs ++ r).dropWhile isDigit = xs.dropWhile isDigit ++ r := by
  by_cases hfull : (xs.takeWhile isDigit).length = xs.length
  · have hx : xs.takeWhile isDigit = xs := (List.takeWhile_prefix _).eq_of_length hfull
    obtain ⟨htw, hdw⟩ := takeWhile_full_append hx (numSep_takeWhile hr)
    constructor
    · rw [htw, hx]
    · rw [hdw, takeWhile_full_dropWhile hx, List.nil_append]
  · exact @takeWhile_part_append isDigit xs r hfull

theorem numBody_extend {s lit t r : Str} (h : numBody s = some (lit, t))
    (hr : numSep r = true) : numBody (s ++ r) = some (lit, t ++ r) := by
  cases s with
  | nil =>
      rw [numBody.eq_def] at h
      dsimp only at h
      simp at h
  | cons c rest =>
      rw [numBody.eq_def] at h
      dsimp only at h
      simp only [List.cons_append]
      rw [numBody.eq_def]
      dsimp only
      by_cases hc0 : c = '0'
      · rw [if_pos hc0] at h ⊢
        rcases hfp : numFracPart rest with ⟨frac, s2⟩
        rw [hfp] at h
        dsimp only at h
        rcases hep : numExpPart s2 with ⟨ex, s3⟩
        rw [hep] at h
        dsimp only at h
        injection h with h1
        injection h1 with h2 h3
        subst h2; subst h3
        rw [numFracPart_extend hfp hr]
        dsimp only
        rw [numExpPart_extend hep hr]
      · by_cases hcd : isDigit c = true
        · rw [if_neg hc0, if_pos hcd] at h ⊢
          obtain ⟨htw, hdw⟩ := @digits_split_extend rest r hr
          rw [htw, hdw]
          rcases hfp : numFracPart (rest.dropWhile isDigit) with ⟨frac, s3⟩
          rw [hfp] at h
          dsimp only at h
          rcases hep : numExpPart s3 with ⟨ex, s4⟩
          rw [hep] at h
          dsimp only at h
          injection h with h1
          injection h1 with h2 h3
          subst h2; subst h3
          rw [numFracPart_extend hfp hr]
          dsimp only
          rw [numExpPart_extend hep hr]
        · rw [if_neg hc0, if_neg hcd] at h
          simp at h

theorem parseNumberToken_extend {s lit t r : Str} (h : parseNumberToken s = some (lit, t))
    (hr : numSep r = true) : parseNumberToken (s ++ r) = some (lit, t ++ r) := by
  cases s with
  | nil =>
      rw [parseNumberToken.eq_def] at h
      dsimp only at h
      simp at h
  | cons c rest =>
      rw [parseNumberToken.eq_def] at h
      dsimp only at h
      simp only [List.cons_append]
      rw [parseNumberToken.eq_def]
      dsimp only
      by_cases hc : c = '-'
      · rw [if_pos hc] at h ⊢
        cases hb : numBody rest with
        | none => rw [hb] at h; simp at h
        | some pr =>
            obtain ⟨l, t2⟩ := pr
            rw [hb] at h
            dsimp only at h
            injection h with h1
            injection h1 with h2 h3
            subst h2; subst h3
            rw [numBody_extend hb hr]
      · rw [if_neg hc] at h ⊢
        cases hb : numBody (c :: rest) with
        | none => rw [hb] at h; simp at h
        | some pr =>
            obtain ⟨l, t2⟩ := pr
            rw [hb] at h
            dsimp only at h
            injection h with h1
            injection h1 with h2 h3
            subst h2; subst h3
            rw [show c :: (rest ++ r) = (c :: rest) ++ r from rfl]
            rw [numBody_extend hb hr]

theorem parseNumberToken_wf_extend {lit r : Str} (h : wfNum lit = true)
    (hr : numSep r = true) : parseNumberToken (lit ++ r) = some (lit, r) := by
  simp only [wfNum, decide_eq_true_eq] at h
  have := parseNumberToken_extend h hr
  rwa [List.nil_append] at this

theorem takeWhile_of_takeWhile {p : Char → Bool} {l : Str} :
    (l.takeWhile p).takeWhile p = l.takeWhile p :=
  List.takeWhile_eq_self_iff.mpr (fun _ ha => List.mem_takeWhile_imp ha)

theorem numExpPart_self {s ex t : Str} (h : numExpPart s = (ex, t)) :
    numExpPart ex = (ex, []) ∧ ex.takeWhile isDigit = [] ∧ numFracPart ex = ([], ex) := by
  cases s with
  | nil =>
      rw [numExpPart.eq_def] at h
      dsimp only at h
      injection h with h1 h2
      subst h1
      exact ⟨rfl, rfl, rfl⟩
  | cons c rest =>
      rw [numExpPart.eq_def] at h
      dsimp only at h
      by_cases hc : (c = 'e' || c = 'E') = true
      · have ce : c = 'e' ∨ c = 'E' := by
          simpa only [Bool.or_eq_true, decide_eq_true_eq] using hc
        have hcd : isDigit c = false := by rcases ce with rfl | rfl <;> decide
        have hcdot : ¬ c = '.' := by rcases ce with rfl | rfl <;> decide
        rw [if_pos hc] at h
        cases rest with
        | nil =>
            injection h with h1 h2
            subst h1
            exact ⟨rfl, rfl, rfl⟩
        | cons d rest2 =>
            dsimp only at h
            by_cases hd : (d = '+' || d = '-') = true
            · have de : d = '+' ∨ d = '-' := by
                simpa only [Bool.or_eq_true, decide_eq_true_eq] using hd
              have hdd : isDigit d = false := by rcases de with rfl | rfl <;> decide
              rw [if_pos hd] at h
              by_cases hds : rest2.takeWhile isDigit = []
              · rw [hds, if_pos rfl] at h
                injection h with h1 h2
                subst h1
                exact ⟨rfl, rfl, rfl⟩
              · rw [if_neg hds] at h
                injection h with h1 h2
                subst h1
                refine ⟨?_, ?_, ?_⟩
                · rw [numExpPart.eq_def]
                  dsimp only
                  rw [if_pos hc, if_pos hd, takeWhile_of_takeWhile, if_neg hds,
                      takeWhile_full_dropWhile takeWhile_of_takeWhile]
                · rw [List.takeWhile_cons_of_neg (by simp [hcd])]
                · rw [numFracPart, if_neg hcdot]
            · rw [if_neg hd] at h
              by_cases hds : (d :: rest2).takeWhile isDigit = []
              · rw [hds, if_pos rfl] at h
                injection h with h1 h2
                subst h1
                exact ⟨rfl, rfl, rfl⟩
              · rw [if_neg hds] at h
                injection h with h1 h2
                subst h1
                have hd2 : ∀ e tl2, (d :: rest2).takeWhile isDigit = e :: tl2 →
                    ¬ (e = '+' || e = '-') = true := by
                  intro e tl2 he
                  have hmem : e ∈ (d :: rest2).takeWhile isDigit := by rw [he]; simp
                  have := List.mem_takeWhile_imp hmem
                  simp only [Bool.or_eq_true, decide_eq_true_eq]
                  push_neg
                  constructor <;> rintro rfl <;> simp [isDigit] at this
                refine ⟨?_, ?_, ?_⟩
                · rw [numExpPart.eq_def]
                  dsimp only
                  rw [if_pos hc]
                  cases htw : (d :: rest2).takeWhile isDigit with
                  | nil => exact absurd htw hds
                  | cons e tl2 =>
                      dsimp only
                      rw [if_neg (hd2 e tl2 htw)]
                      rw [← htw, takeWhile_of_takeWhile, if_neg hds,
                          takeWhile_full_dropWhile takeWhile_of_takeWhile]
                · rw [List.takeWhile_cons_of_neg (by simp [hcd])]
                · rw [numFracPart, if_neg hcdot]
      · rw [if_neg hc] at h
        injection h with h1 h2
        subst h1
        exact ⟨rfl, rfl, rfl⟩

theorem numFracPart_self {s frac t ex : Str} (h : numFracPart s = (frac, t))
    (hex1 : ex.takeWhile isDigit = []) (hex2 : numFracPart ex = ([], ex)) :
    numFracPart (frac ++ ex) = (frac, ex) ∧ (frac ++ ex).takeWhile isDigit = [] := by
  cases s with
  | nil =>
      rw [numFracPart] at h
      injection h with h1 h2
      subst h1
      rw [List.nil_append]
      exact ⟨hex2, hex1⟩
  | cons c rest =>
      by_cases hc : c = '.'
      · subst hc
        rw [numFracPart, if_pos rfl] at h
        dsimp only at h
        by_cases hds : rest.takeWhile isDigit = []
        · rw [if_pos hds] at h
          injection h with h1 h2
          subst h1
          rw [List.nil_append]
          exact ⟨hex2, hex1⟩
        · rw [if_neg hds] at h
          injection h with h1 h2
          subst h1
          obtain ⟨htw, hdw⟩ := @takeWhile_full_append isDigit (rest.takeWhile isDigit) ex
            takeWhile_of_takeWhile hex1
          constructor
          · simp only [List.cons_append]
            rw [numFracPart, if_pos rfl]
            dsimp only
            rw [htw, if_neg hds, hdw]
          · simp only [List.cons_append]
            rw [List.takeWhile_cons_of_neg (by decide)]
      · rw [numFracPart, if_neg hc] at h
        injection h with h1 h2
        subst h1
        rw [List.nil_append]
        exact ⟨hex2, hex1⟩

theorem numBody_self {s lit t : Str} (h : numBody s = some (lit, t)) :
    numBody lit = some (lit, []) ∧ ∃ c tl, lit = c :: tl ∧ isDigit c = true := by
  cases s with
  | nil =>
      rw [numBody.eq_def] at h
      dsimp only at h
      simp at h
  | cons c rest =>
      rw [numBody.eq_def] at h
      dsimp only at h
      by_cases hc0 : c = '0'
      · rw [if_pos hc0] at h
        rcases hfp : numFracPart rest with ⟨frac, s2⟩
        rw [hfp] at h
        dsimp only at h
        rcases hep : numExpPart s2 with ⟨ex, s3⟩
        rw [hep] at h
        dsimp only at h
        injection h with h1
        injection h1 with h2 h3
        subst h2
        obtain ⟨hexSelf, hexTW, hexFrac⟩ := numExpPart_self hep
        obtain ⟨hfr, htw⟩ := numFracPart_self hfp hexTW hexFrac
        constructor
        · rw [numBody.eq_def]
          dsimp only
          rw [if_pos hc0, hfr]
          dsimp only
          rw [hexSelf]
        · exact ⟨c, frac ++ ex, rfl, by rw [hc0]; decide⟩
      · by_cases hcd : isDigit c = true
        · rw [if_neg hc0, if_pos hcd] at h
          rcases hfp : numFracPart (rest.dropWhile isDigit) with ⟨frac, s3⟩
          rw [hfp] at h
          dsimp only at h
          rcases hep : numExpPart s3 with ⟨ex, s4⟩
          rw [hep] at h
          dsimp only at h
          injection h with h1
          injection h1 with h2 h3
          subst h2
          obtain ⟨hexSelf, hexTW, hexFrac⟩ := numExpPart_self hep
          obtain ⟨hfr, htw⟩ := numFracPart_self hfp hexTW hexFrac
          obtain ⟨htw2, hdw2⟩ := @takeWhile_full_append isDigit (rest.takeWhile isDigit)
            (frac ++ ex) takeWhile_of_takeWhile htw
          constructor
          · rw [numBody.eq_def]
            dsimp only
            rw [if_neg hc0, if_pos hcd]
            simp only [List.append_assoc]
            rw [htw2, hdw2, hfr]
            dsimp only
            rw [hexSelf]
          · exact ⟨c, _, rfl, hcd⟩
        · rw [if_neg hc0, if_neg hcd] at h
          simp at h

theorem parseNumberToken_self {s lit t : Str} (h : parseNumberToken s = some (lit, t)) :
    wfNum lit = true := by
  simp only [wfNum, decide_eq_true_eq]
  cases s with
  | nil =>
      rw [parseNumberToken.eq_def] at h
      dsimp only at h
      simp at h
  | cons c rest =>
      rw [parseNumberToken.eq_def] at h
      dsimp only at h
      by_cases hc : c = '-'
      · rw [if_pos hc] at h
        cases hb : numBody rest with
        | none => rw [hb] at h; simp at h
        | some pr =>
            obtain ⟨l, t2⟩ := pr
            rw [hb] at h
            dsimp only at h
            injection h with h1
            injection h1 with h2 h3
            subst h2
            obtain ⟨hself, c2, tl, hlit, hdig⟩ := numBody_self hb
            rw [parseNumberToken.eq_def]
            dsimp only
            rw [if_pos hc, hself]
      · rw [if_neg hc] at h
        cases hb : numBody (c :: rest) with
        | none => rw [hb] at h; simp at h
        | some pr =>
            obtain ⟨l, t2⟩ := pr
            rw [hb] at h
            dsimp only at h
            injection h with h1
            injection h1 with h2 h3
            subst h2
            obtain ⟨hself, c2, tl, hlit, hdig⟩ := numBody_self hb
            rw [parseNumberToken.eq_def, hlit]
            dsimp only
            rw [if_neg (by rintro rfl; simp [isDigit] at hdig), ← hlit, hself]

theorem parseValue_ws {f : Nat} {w : Char} {s : Str} (h : jsonIsWs w = true) :
    parseValue f (w :: s) = parseValue f s := by
  cases f with
  | zero => rfl
  | succ f =>
      rw [parseValue.eq_def]
      conv_rhs => rw [parseValue.eq_def]
      dsimp only
      rw [List.dropWhile_cons_of_pos h]

theorem parseArrLoop_ws {f : Nat} {w : Char} {s : Str} (h : jsonIsWs w = true) :
    parseArrLoop f (w :: s) = parseArrLoop f s := by
  cases f with
  | zero => rfl
  | succ f =>
      rw [parseArrLoop.eq_def]
      conv_rhs => rw [parseArrLoop.eq_def]
      dsimp only
      rw [parseValue_ws h]

theorem parseObjLoop_ws {f : Nat} {w : Char} {s : Str} (h : jsonIsWs w = true) :
    parseObjLoop f (w :: s) = parseObjLoop f s := by
  cases f with
  | zero => rfl
  | succ f =>
      rw [parseObjLoop.eq_def]
      conv_rhs => rw [parseObjLoop.eq_def]
      dsimp only
      rw [List.dropWhile_cons_of_pos h]

theorem ws_char_cases {c : Char} (h : jsonIsWs c = true) :
    c = '\r' ∨ c = '\n' ∨ c = '\t' ∨ c = ' ' := by
  simp only [jsonIsWs, Bool.or_eq_true, decide_eq_true_eq] at h
  tauto

theorem isDigit_not_ws {c : Char} (h : isDigit c = true) : jsonIsWs c = false := by
  cases hws : jsonIsWs c with
  | false => rfl
  | true =>
      rcases ws_char_cases hws with rfl | rfl | rfl | rfl <;> exact absurd h (by decide)

theorem digit_ne {c d : Char} (h : isDigit c = true) (hd : isDigit d = false) : c ≠ d := by
  rintro rfl
  rw [h] at hd
  cases hd

theorem parseNumberToken_head {s lit t : Str} (h : parseNumberToken s = some (lit, t)) :
    ∃ c tl, lit = c :: tl ∧ (c = '-' ∨ isDigit c = true) := by
  cases s with
  | nil =>
      rw [parseNumberToken.eq_def] at h
      dsimp only at h
      simp at h
  | cons c rest =>
      rw [parseNumberToken.eq_def] at h
      dsimp only at h
      by_cases hc : c = '-'
      · rw [if_pos hc] at h
        cases hb : numBody rest with
        | none => rw [hb] at h; simp at h
        | some pr =>
            obtain ⟨l, t2⟩ := pr
            rw [hb] at h
            dsimp only at h
            injection h with h1
            injection h1 with h2 h3
            exact ⟨c, l, h2.symm, Or.inl hc⟩
      · rw [if_neg hc] at h
        cases hb : numBody (c :: rest) with
        | none => rw [hb] at h; simp at h
        | some pr =>
            obtain ⟨l, t2⟩ := pr
            rw [hb] at h
            dsimp only at h
            injection h with h1
            injection h1 with h2 h3
            obtain ⟨hself, c2, tl, hlit, hdig⟩ := numBody_self hb
            subst h2
            exact ⟨c2, tl, hlit, Or.inr hdig⟩

theorem dumpsVal_head {v : Json} (h : wfVal v = true) :
    ∃ c tl, dumpsVal v = c :: tl ∧ jsonIsWs c = false ∧ c ≠ ']' := by
  cases v with
  | null => exact ⟨'n', _, rfl, by decide, by decide⟩
  | bool b => cases b
              · exact ⟨'f', _, rfl, by decide, by decide⟩
              · exact ⟨'t', _, rfl, by decide, by decide⟩
  | str s => exact ⟨'"', escapeStr s ++ ['"'], rfl, by decide, by decide⟩
  | arr l =>
      cases l with
      | nil => exact ⟨'[', _, rfl, by decide, by decide⟩
      | cons v tl => exact ⟨'[', _, rfl, by decide, by decide⟩
  | obj o =>
      cases o with
      | nil => exact ⟨lbrace, _, rfl, by decide, by decide⟩
      | cons k v tl => exact ⟨lbrace, _, rfl, by decide, by decide⟩
  | num lit =>
      simp only [wfVal, wfNum, decide_eq_true_eq] at h
      obtain ⟨c, tl, hlit, hd⟩ := parseNumberToken_head h
      refine ⟨c, tl, hlit, ?_, ?_⟩
      · rcases hd with rfl | hd
        · decide
        · exact isDigit_not_ws hd
      · rcases hd with rfl | hd
        · decide
        · exact digit_ne hd (by decide)

theorem json_sizeOf_pos (v : Json) : 0 < sizeOf v := by
  cases v <;> simp <;> omega

theorem jsonList_sizeOf_pos (l : JsonList) : 0 < sizeOf l := by
  cases l <;> simp <;> omega

theorem jsonObj_sizeOf_pos (o : JsonObj) : 0 < sizeOf o := by
  cases o <;> simp <;> omega

theorem needVal_pos (v : Json) : 0 < needVal v := by
  cases v <;> simp [needVal] <;> omega

theorem numSep_dumpsElems (l : JsonList) (r : Str) :
    numSep (dumpsElems l ++ r) = true := by
  cases l <;> rfl

theorem numSep_dumpsFields (o : JsonObj) (r : Str) :
    numSep (dumpsFields o ++ r) = true := by
  cases o <;> rfl

/-- Plain concatenation of field lists, for reasoning about `objInsertAll`. -/
def objAppend : JsonObj → JsonObj → JsonObj
  | .nil, b => b
  | .cons k v tl, b => .cons k v (objAppend tl b)

theorem objAppend_nil : ∀ (a : JsonObj), objAppend a .nil = a
  | .nil => rfl
  | .cons k v tl => by rw [objAppend, objAppend_nil tl]

theorem objAppend_assoc : ∀ (a b c : JsonObj),
    objAppend (objAppend a b) c = objAppend a (objAppend b c)
  | .nil, _, _ => rfl
  | .cons k v tl, b, c => by rw [objAppend, objAppend, objAppend, objAppend_assoc tl b c]

theorem setKey_fresh : ∀ (o : JsonObj) (k : Str) (v : Json), o.hasKey k = false →
    o.setKey k v = objAppend o (.cons k v .nil)
  | .nil, k, v, _ => rfl
  | .cons k2 v2 tl, k, v, h => by
      rw [JsonObj.hasKey, Bool.or_eq_false_iff] at h
      rw [JsonObj.setKey, objAppend, if_neg (by simpa using h.1), setKey_fresh tl k v h.2]

theorem objAppend_hasKey : ∀ (a : JsonObj) (k : Str) (v : Json) (tl : JsonObj),
    (objAppend a (.cons k v tl)).hasKey k = true
  | .nil, k, v, tl => by simp [objAppend, JsonObj.hasKey]
  | .cons k2 v2 a2, k, v, tl => by
      rw [objAppend, JsonObj.hasKey, objAppend_hasKey a2 k v tl, Bool.or_true]

theorem keys_fresh_of_nodup : ∀ (acc : JsonObj) (k : Str) (v : Json) (tl : JsonObj),
    keysNodup (objAppend acc (.cons k v tl)) = true → acc.hasKey k = false
  | .nil, _, _, _, _ => rfl
  | .cons k2 v2 a2, k, v, tl, h => by
      rw [objAppend, keysNodup, Bool.and_eq_true] at h
      rw [JsonObj.hasKey, Bool.or_eq_false_iff]
      constructor
      · simp only [decide_eq_false_iff_not]
        rintro rfl
        have hk := objAppend_hasKey a2 k v tl
        rw [hk] at h
        simpa using h.1
      · exact keys_fresh_of_nodup a2 k v tl h.2

theorem objInsertAll_fresh : ∀ (o acc : JsonObj),
    keysNodup (objAppend acc o) = true → objInsertAll acc o = objAppend acc o
  | .nil, acc, _ => by rw [objInsertAll, objAppend_nil]
  | .cons k v tl, acc, h => by
      have hfresh : acc.hasKey k = false := keys_fresh_of_nodup acc k v tl h
      rw [objInsertAll, setKey_fresh acc k v hfresh,
        objInsertAll_fresh tl (objAppend acc (.cons k v .nil)) (by rw [objAppend_assoc]; exact h),
        objAppend_assoc]
      rfl

theorem objInsertAll_nil_nodup {o : JsonObj} (h : keysNodup o = true) :
    objInsertAll .nil o = o :=
  objInsertAll_fresh o .nil h

theorem begins_append_self : ∀ (pat s : Str), begins (pat ++ s) pat = true := by
  intro pat
  induction pat with
  | nil => intro s; cases s <;> rfl
  | cons c cs ih => intro s; simp [begins, ih]

theorem roundtrip_main : ∀ n : Nat,
    (∀ v : Json, sizeOf v < n → wfVal v = true → ∀ f r, needVal v ≤ f →
      numSep r = true → parseValue f (dumpsVal v ++ r) = some (v, r)) ∧
    (∀ (l : JsonList) (v : Json), sizeOf l + sizeOf v < n → wfVal v = true →
      wfList l = true → ∀ f r, 1 + needVal v + needList l ≤ f → numSep r = true →
      parseArrLoop f (dumpsVal v ++ (dumpsElems l ++ r)) = some (JsonList.cons v l, r)) ∧
    (∀ (o : JsonObj) (k : Str) (v : Json), sizeOf o + sizeOf v < n → wfVal v = true →
      wfObj o = true → ∀ f r, 1 + needVal v + needObj o ≤ f → numSep r = true →
      parseObjLoop f ('"' :: (escapeStr k ++ ('"' :: (':' :: ' ' ::
          (dumpsVal v ++ (dumpsFields o ++ r)))))) = some (JsonObj.cons k v o, r)) := by
  intro n
  induction n with
  | zero =>
      exact ⟨fun v hsz => absurd hsz (by omega),
        fun l v hsz => absurd hsz (by omega),
        fun o k v hsz => absurd hsz (by omega)⟩
  | succ n ih =>
      obtain ⟨IHP, IHQ, IHR⟩ := ih
      refine ⟨?_, ?_, ?_⟩
      · intro v hsz hwf f r hf hr
        cases v with
        | null =>
            simp only [needVal] at hf
            obtain ⟨f2, rfl⟩ : ∃ f2, f = f2 + 1 := ⟨f - 1, by omega⟩
            rw [show dumpsVal Json.null = ['n', 'u', 'l', 'l'] from rfl]
            simp only [List.cons_append, List.nil_append]
            rw [parseValue.eq_def]
            dsimp only
            rw [List.dropWhile_cons_of_neg (by decide)]
            dsimp only
            rw [if_neg (by decide), if_neg (by decide), if_neg (by decide),
                if_neg (by decide), if_neg (by decide), if_pos rfl]
            rw [show ('u' :: 'l' :: 'l' :: r) = "ull".toList ++ r from rfl]
            rw [if_pos (begins_append_self "ull".toList r)]
            rw [show List.drop 3 ("ull".toList ++ r) = r from rfl]
        | bool b =>
            simp only [needVal] at hf
            obtain ⟨f2, rfl⟩ : ∃ f2, f = f2 + 1 := ⟨f - 1, by omega⟩
            cases b with
            | false =>
                rw [show dumpsVal (Json.bool false) = ['f', 'a', 'l', 's', 'e'] from rfl]
                simp only [List.cons_append, List.nil_append]
                rw [parseValue.eq_def]
                dsimp only
                rw [List.dropWhile_cons_of_neg (by decide)]
                dsimp only
                rw [if_neg (by decide), if_neg (by decide), if_neg (by decide),
                    if_neg (by decide), if_pos rfl]
                rw [show ('a' :: 'l' :: 's' :: 'e' :: r) = "alse".toList ++ r from rfl]
                rw [if_pos (begins_append_self "alse".toList r)]
                rw [show List.drop 4 ("alse".toList ++ r) = r from rfl]
            | true =>
                rw [show dumpsVal (Json.bool true) = ['t', 'r', 'u', 'e'] from rfl]
                simp only [List.cons_append, List.nil_append]
                rw [parseValue.eq_def]
                dsimp only
                rw [List.dropWhile_cons_of_neg (by decide)]
                dsimp only
                rw [if_neg (by decide), if_neg (by decide), if_neg (by decide),
                    if_pos rfl]
                rw [show ('r' :: 'u' :: 'e' :: r) = "rue".toList ++ r from rfl]
                rw [if_pos (begins_append_self "rue".toList r)]
                rw [show List.drop 3 ("rue".toList ++ r) = r from rfl]
        | num lit =>
            simp only [needVal] at hf
            obtain ⟨f2, rfl⟩ : ∃ f2, f = f2 + 1 := ⟨f - 1, by omega⟩
            simp only [wfVal] at hwf
            have hpn := parseNumberToken_wf_extend hwf hr
            have hself : parseNumberToken lit = some (lit, []) := by
              simpa only [wfNum, decide_eq_true_eq] using hwf
            obtain ⟨c, tl, rfl, hd⟩ := parseNumberToken_head hself
            have hfacts : jsonIsWs c = false ∧ ¬c = '"' ∧ ¬c = lbrace ∧ ¬c = '[' ∧
                ¬c = 't' ∧ ¬c = 'f' ∧ ¬c = 'n' := by
              rcases hd with rfl | hd
              · exact ⟨by decide, by decide, by decide, by decide, by decide,
                  by decide, by decide⟩
              · exact ⟨isDigit_not_ws hd, digit_ne hd (by decide), digit_ne hd (by decide),
                  digit_ne hd (by decide), digit_ne hd (by decide), digit_ne hd (by decide),
                  digit_ne hd (by decide)⟩
            rw [show dumpsVal (Json.num (c :: tl)) = c :: tl from rfl]
            simp only [List.cons_append]
            rw [parseValue.eq_def]
            dsimp only
            rw [List.dropWhile_cons_of_neg (by simp [hfacts.1])]
            dsimp only
            rw [if_neg hfacts.2.1, if_neg hfacts.2.2.1, if_neg hfacts.2.2.2.1,
                if_neg hfacts.2.2.2.2.1, if_neg hfacts.2.2.2.2.2.1,
                if_neg hfacts.2.2.2.2.2.2]
            rw [show c :: (tl ++ r) = (c :: tl) ++ r from rfl, hpn]
        | str s =>
            simp only [needVal] at hf
            obtain ⟨f2, rfl⟩ : ∃ f2, f = f2 + 1 := ⟨f - 1, by omega⟩
            rw [show dumpsVal (Json.str s) = '"' :: (escapeStr s ++ ['"']) from rfl]
            simp only [List.cons_append, List.append_assoc, List.singleton_append,
              List.nil_append]
            rw [parseValue.eq_def]
            dsimp only
            rw [List.dropWhile_cons_of_neg (by decide)]
            dsimp only
            rw [if_pos rfl]
            rw [parseStringBody_escape]
        | arr l =>
            cases l with
            | nil =>
                simp only [needVal, needList] at hf
                obtain ⟨f2, rfl⟩ : ∃ f2, f = f2 + 2 := ⟨f - 2, by omega⟩
                rw [show dumpsVal (Json.arr JsonList.nil) = ['[', ']'] from rfl]
                simp only [List.cons_append, List.nil_append]
                rw [parseValue.eq_def]
                dsimp only
                rw [List.dropWhile_cons_of_neg (by decide)]
                dsimp only
                rw [if_neg (by decide), if_neg (by decide), if_pos rfl]
                rw [parseArrElems.eq_def]
                dsimp only
                rw [List.dropWhile_cons_of_neg (by decide)]
                dsimp only
                rw [if_pos rfl]
            | cons v tl =>
                simp only [needVal, needList] at hf
                obtain ⟨f2, rfl⟩ : ∃ f2, f = f2 + 2 := ⟨f - 2, by omega⟩
                simp only [wfVal, wfList, Bool.and_eq_true] at hwf
                simp only [Json.arr.sizeOf_spec, JsonList.cons.sizeOf_spec] at hsz
                rw [show dumpsVal (Json.arr (JsonList.cons v tl)) =
                    '[' :: (dumpsVal v ++ dumpsElems tl) from by
                  simp only [dumpsVal]]
                simp only [List.cons_append, List.append_assoc]
                rw [parseValue.eq_def]
                dsimp only
                rw [List.dropWhile_cons_of_neg (by decide)]
                dsimp only
                rw [if_neg (by decide), if_neg (by decide), if_pos rfl]
                rw [parseArrElems.eq_def]
                dsimp only
                obtain ⟨c, tl2, hshape, hws2, hnrb⟩ := dumpsVal_head hwf.1
                rw [hshape]
                simp only [List.cons_append]
                rw [List.dropWhile_cons_of_neg (by simp [hws2])]
                dsimp only
                rw [if_neg hnrb]
                rw [show c :: (tl2 ++ (dumpsElems tl ++ r)) =
                    (c :: tl2) ++ (dumpsElems tl ++ r) from rfl, ← hshape]
                rw [IHQ tl v (by omega) hwf.1 hwf.2 f2 r (by omega) hr]
        | obj o =>
            cases o with
            | nil =>
                simp only [needVal, needObj] at hf
                obtain ⟨f2, rfl⟩ : ∃ f2, f = f2 + 2 := ⟨f - 2, by omega⟩
                rw [show dumpsVal (Json.obj JsonObj.nil) = [lbrace, rbrace] from rfl]
                simp only [List.cons_append, List.nil_append]
                rw [parseValue.eq_def]
                dsimp only
                rw [List.dropWhile_cons_of_neg (by decide)]
                dsimp only
                rw [if_neg (by decide), if_pos rfl]
                rw [parseObjFields.eq_def]
                dsimp only
                rw [List.dropWhile_cons_of_neg (by decide)]
                dsimp only
                rw [if_pos rfl]
            | cons k v tl =>
                simp only [needVal, needObj] at hf
                obtain ⟨f2, rfl⟩ : ∃ f2, f = f2 + 2 := ⟨f - 2, by omega⟩
                simp only [wfVal, Bool.and_eq_true] at hwf
                obtain ⟨hnd, hwfo⟩ := hwf
                simp only [wfObj, Bool.and_eq_true] at hwfo
                simp only [Json.obj.sizeOf_spec, JsonObj.cons.sizeOf_spec] at hsz
                rw [show dumpsVal (Json.obj (JsonObj.cons k v tl)) =
                    lbrace :: (dumpsStr k ++ ':' :: ' ' :: (dumpsVal v ++ dumpsFields tl))
                    from by simp only [dumpsVal]]
                simp only [dumpsStr, List.cons_append, List.append_assoc,
                  List.singleton_append, List.nil_append]
                rw [parseValue.eq_def]
                dsimp only
                rw [List.dropWhile_cons_of_neg (by decide)]
                dsimp only
                rw [if_neg (by decide), if_pos rfl]
                rw [parseObjFields.eq_def]
                dsimp only
                rw [List.dropWhile_cons_of_neg (by decide)]
                dsimp only
                rw [if_neg (by decide), if_pos rfl]
                rw [IHR tl k v (by omega) hwfo.1 hwfo.2 f2 r (by omega) hr]
                dsimp only
                rw [objInsertAll_nil_nodup hnd]
      · intro l v hsz hwfv hwfl f r hf hr
        obtain ⟨f2, rfl⟩ : ∃ f2, f = f2 + 1 := ⟨f - 1, by omega⟩
        rw [parseArrLoop.eq_def]
        dsimp only
        have hszv : sizeOf v < n := by
          have := jsonList_sizeOf_pos l
          omega
        rw [IHP v hszv hwfv f2 (dumpsElems l ++ r) (by omega) (numSep_dumpsElems l r)]
        dsimp only
        cases l with
        | nil =>
            rw [show dumpsElems JsonList.nil = [']'] from rfl]
            simp only [List.singleton_append]
            rw [List.dropWhile_cons_of_neg (by decide)]
            dsimp only
            rw [if_pos rfl]
        | cons v2 tl2 =>
            simp only [wfList, Bool.and_eq_true] at hwfl
            simp only [JsonList.cons.sizeOf_spec] at hsz
            simp only [needList] at hf
            rw [show dumpsElems (JsonList.cons v2 tl2) =
                ',' :: ' ' :: (dumpsVal v2 ++ dumpsElems tl2) from by
              simp only [dumpsElems]]
            simp only [List.cons_append, List.append_assoc]
            rw [List.dropWhile_cons_of_neg (by decide)]
            dsimp only
            rw [if_neg (by decide), if_pos rfl]
            rw [parseArrLoop_ws (by decide)]
            rw [IHQ tl2 v2 (by omega) hwfl.1 hwfl.2 f2 r (by omega) hr]
      · intro o k v hsz hwfv hwfo f r hf hr
        obtain ⟨f2, rfl⟩ : ∃ f2, f = f2 + 1 := ⟨f - 1, by omega⟩
        rw [parseObjLoop.eq_def]
        dsimp only
        rw [List.dropWhile_cons_of_neg (by decide)]
        simp only []
        rw [parseStringBody_escape]
        dsimp only
        rw [List.dropWhile_cons_of_neg (by decide)]
        simp only []
        rw [parseValue_ws (by decide)]
        have hszv : sizeOf v < n := by
          have := jsonObj_sizeOf_pos o
          omega
        rw [IHP v hszv hwfv f2 (dumpsFields o ++ r) (by omega) (numSep_dumpsFields o r)]
        dsimp only
        cases o with
        | nil =>
            rw [show dumpsFields JsonObj.nil = [rbrace] from rfl]
            simp only [List.singleton_append]
            rw [List.dropWhile_cons_of_neg (by decide)]
            dsimp only
            rw [if_pos rfl]
        | cons k2 v2 tl2 =>
            simp only [wfObj, Bool.and_eq_true] at hwfo
            simp only [JsonObj.cons.sizeOf_spec] at hsz
            simp only [needObj] at hf
            rw [show dumpsFields (JsonObj.cons k2 v2 tl2) =
                ',' :: ' ' :: (dumpsStr k2 ++ ':' :: ' ' :: (dumpsVal v2 ++ dumpsFields tl2))
                from by simp only [dumpsFields]]
            simp only [dumpsStr, List.cons_append, List.append_assoc,
              List.singleton_append, List.nil_append]
            rw [List.dropWhile_cons_of_neg (by decide)]
            dsimp only
            rw [if_neg (by decide), if_pos rfl]
            rw [parseObjLoop_ws (by decide)]
            rw [IHR tl2 k2 v2 (by omega) hwfo.1 hwfo.2 f2 r (by omega) hr]

theorem need_le_len : ∀ n : Nat,
    (∀ v : Json, sizeOf v < n → wfVal v = true →
      needVal v ≤ 2 * (dumpsVal v).length) ∧
    (∀ l : JsonList, sizeOf l < n → wfList l = true →
      needList l + 2 ≤ 2 * (dumpsElems l).length) ∧
    (∀ o : JsonObj, sizeOf o < n → wfObj o = true →
      needObj o + 2 ≤ 2 * (dumpsFields o).length) := by
  intro n
  induction n with
  | zero =>
      exact ⟨fun v hsz => absurd hsz (by omega),
        fun l hsz => absurd hsz (by omega),
        fun o hsz => absurd hsz (by omega)⟩
  | succ n ih =>
      obtain ⟨IHP, IHQ, IHR⟩ := ih
      refine ⟨?_, ?_, ?_⟩
      · intro v hsz hwf
        cases v with
        | null => simp [needVal, dumpsVal]
        | bool b => cases b <;> simp [needVal, dumpsVal]
        | num lit =>
            simp only [wfVal] at hwf
            have hself : parseNumberToken lit = some (lit, []) := by
              simpa only [wfNum, decide_eq_true_eq] using hwf
            obtain ⟨c, tl, rfl, _⟩ := parseNumberToken_head hself
            simp only [needVal]
            rw [show dumpsVal (Json.num (c :: tl)) = c :: tl from rfl]
            simp only [List.length_cons]
            omega
        | str s =>
            simp only [needVal]
            rw [show dumpsVal (Json.str s) = '"' :: (escapeStr s ++ ['"']) from rfl]
            simp only [List.length_cons]
            omega
        | arr l =>
            simp only [wfVal] at hwf
            simp only [Json.arr.sizeOf_spec] at hsz
            cases l with
            | nil => simp [needVal, needList, dumpsVal]
            | cons v tl =>
                simp only [JsonList.cons.sizeOf_spec] at hsz
                have hb := IHQ tl (by omega) (by
                  simp only [wfList, Bool.and_eq_true] at hwf
                  exact hwf.2)
                have ha := IHP v (by omega) (by
                  simp only [wfList, Bool.and_eq_true] at hwf
                  exact hwf.1)
                simp only [needVal, needList]
                rw [show dumpsVal (Json.arr (JsonList.cons v tl)) =
                    '[' :: (dumpsVal v ++ dumpsElems tl) from by simp only [dumpsVal]]
                simp only [List.length_cons, List.length_append]
                omega
        | obj o =>
            simp only [wfVal, Bool.and_eq_true] at hwf
            simp only [Json.obj.sizeOf_spec] at hsz
            cases o with
            | nil => simp [needVal, needObj, dumpsVal]
            | cons k v tl =>
                simp only [JsonObj.cons.sizeOf_spec] at hsz
                have hb := IHR tl (by omega) (by
                  have h2 := hwf.2
                  simp only [wfObj, Bool.and_eq_true] at h2
                  exact h2.2)
                have ha := IHP v (by omega) (by
                  have h2 := hwf.2
                  simp only [wfObj, Bool.and_eq_true] at h2
                  exact h2.1)
                simp only [needVal, needObj]
                rw [show dumpsVal (Json.obj (JsonObj.cons k v tl)) =
                    lbrace :: (dumpsStr k ++ ':' :: ' ' :: (dumpsVal v ++ dumpsFields tl))
                    from by simp only [dumpsVal]]
                simp only [List.length_cons, List.length_append]
                omega
      · intro l hsz hwf
        cases l with
        | nil => simp [needList, dumpsElems]
        | cons v tl =>
            simp only [wfList, Bool.and_eq_true] at hwf
            simp only [JsonList.cons.sizeOf_spec] at hsz
            have h1 := IHP v (by omega) hwf.1
            have h2 := IHQ tl (by omega) hwf.2
            rw [show dumpsElems (JsonList.cons v tl) =
                ',' :: ' ' :: (dumpsVal v ++ dumpsElems tl) from by simp only [dumpsElems]]
            simp only [needList, List.length_cons, List.length_append]
            omega
      · intro o hsz hwf
        cases o with
        | nil => simp [needObj, dumpsFields]
        | cons k v tl =>
            simp only [wfObj, Bool.and_eq_true] at hwf
            simp only [JsonObj.cons.sizeOf_spec] at hsz
            have h1 := IHP v (by omega) hwf.1
            have h2 := IHR tl (by omega) hwf.2
            rw [show dumpsFields (JsonObj.cons k v tl) =
                ',' :: ' ' :: (dumpsStr k ++ ':' :: ' ' :: (dumpsVal v ++ dumpsFields tl))
                from by simp only [dumpsFields]]
            simp only [needObj, List.length_cons, List.length_append]
            omega

/-- `json.dumps` output reparses with `json.loads` to the original value, for
any value `json.loads` itself can produce. -/
theorem loads_dumps {v : Json} (h : wfVal v = true) : loads (dumpsVal v) = some v := by
  have hfuel : needVal v ≤ 2 * (dumpsVal v).length + 8 := by
    have := (need_le_len (sizeOf v + 1)).1 v (by omega) h
    omega
  have h1 := (roundtrip_main (sizeOf v + 1)).1 v (by omega) h
    (2 * (dumpsVal v).length + 8) [] hfuel rfl
  rw [List.append_nil] at h1
  unfold loads
  rw [h1]
  rfl

theorem hasKey_setKey_ne : ∀ (o : JsonObj) (k k2 : Str) (v : Json), k2 ≠ k →
    (o.setKey k v).hasKey k2 = o.hasKey k2
  | .nil, k, k2, v, h => by
      simp [JsonObj.setKey, JsonObj.hasKey, h]
  | .cons k3 v3 tl, k, k2, v, h => by
      rw [JsonObj.setKey]
      by_cases hk : k = k3
      · rw [if_pos hk, JsonObj.hasKey, JsonObj.hasKey]
      · rw [if_neg hk, JsonObj.hasKey, JsonObj.hasKey,
          hasKey_setKey_ne tl k k2 v h]

theorem setKey_nodup : ∀ (o : JsonObj) (k : Str) (v : Json),
    keysNodup o = true → keysNodup (o.setKey k v) = true
  | .nil, k, v, _ => by simp [JsonObj.setKey, keysNodup, JsonObj.hasKey]
  | .cons k3 v3 tl, k, v, h => by
      rw [keysNodup, Bool.and_eq_true] at h
      rw [JsonObj.setKey]
      by_cases hk : k = k3
      · rw [if_pos hk, keysNodup, Bool.and_eq_true]
        exact h
      · rw [if_neg hk, keysNodup, Bool.and_eq_true,
          hasKey_setKey_ne tl k k3 v (fun he => hk he.symm)]
        exact ⟨h.1, setKey_nodup tl k v h.2⟩

theorem setKey_wf : ∀ (o : JsonObj) (k : Str) (v : Json),
    wfObj o = true → wfVal v = true → wfObj (o.setKey k v) = true
  | .nil, k, v, _, hv => by
      rw [JsonObj.setKey, wfObj, Bool.and_eq_true]
      exact ⟨hv, rfl⟩
  | .cons k3 v3 tl, k, v, h, hv => by
      rw [wfObj, Bool.and_eq_true] at h
      rw [JsonObj.setKey]
      by_cases hk : k = k3
      · rw [if_pos hk, wfObj, Bool.and_eq_true]
        exact ⟨hv, h.2⟩
      · rw [if_neg hk, wfObj, Bool.and_eq_true]
        exact ⟨h.1, setKey_wf tl k v h.2 hv⟩

theorem objInsertAll_wf : ∀ (fields acc : JsonObj),
    keysNodup acc = true → wfObj acc = true → wfObj fields = true →
    keysNodup (objInsertAll acc fields) = true ∧ wfObj (objInsertAll acc fields) = true
  | .nil, acc, hnd, hwf, _ => ⟨hnd, hwf⟩
  | .cons k v tl, acc, hnd, hwf, hf => by
      rw [wfObj, Bool.and_eq_true] at hf
      rw [objInsertAll]
      exact objInsertAll_wf tl (acc.setKey k v) (setKey_nodup acc k v hnd)
        (setKey_wf acc k v hwf hf.1) hf.2

theorem parse_wf : ∀ fuel : Nat,
    (∀ s v rest, parseValue fuel s = some (v, rest) → wfVal v = true) ∧
    (∀ s v rest, parseObjFields fuel s = some (v, rest) → wfVal v = true) ∧
    (∀ s fields rest, parseObjLoop fuel s = some (fields, rest) → wfObj fields = true) ∧
    (∀ s v rest, parseArrElems fuel s = some (v, rest) → wfVal v = true) ∧
    (∀ s elems rest, parseArrLoop fuel s = some (elems, rest) → wfList elems = true) := by
  intro fuel
  induction fuel with
  | zero =>
      refine ⟨?_, ?_, ?_, ?_, ?_⟩ <;> intro s v rest h
      · rw [parseValue.eq_def] at h; simp at h
      · rw [parseObjFields.eq_def] at h; simp at h
      · rw [parseObjLoop.eq_def] at h; simp at h
      · rw [parseArrElems.eq_def] at h; simp at h
      · rw [parseArrLoop.eq_def] at h; simp at h
  | succ fuel ih =>
      obtain ⟨IHV, IHF, IHL, IHE, IHA⟩ := ih
      refine ⟨?_, ?_, ?_, ?_, ?_⟩
      · intro s v rest h
        rw [parseValue.eq_def] at h
        dsimp only at h
        cases hdw : s.dropWhile jsonIsWs with
        | nil => rw [hdw] at h; simp at h
        | cons c rest1 =>
            rw [hdw] at h
            dsimp only at h
            by_cases h1 : c = '"'
            · rw [if_pos h1] at h
              cases hsb : parseStringBody rest1 with
              | none => rw [hsb] at h; simp at h
              | some pr =>
                  obtain ⟨content, rest2⟩ := pr
                  rw [hsb] at h
                  dsimp only at h
                  injection h with h2
                  injection h2 with h3 h4
                  subst h3
                  simp [wfVal]
            · rw [if_neg h1] at h
              by_cases h2 : c = lbrace
              · rw [if_pos h2] at h
                exact IHF _ _ _ h
              · rw [if_neg h2] at h
                by_cases h3 : c = '['
                · rw [if_pos h3] at h
                  exact IHE _ _ _ h
                · rw [if_neg h3] at h
                  by_cases h4 : c = 't'
                  · rw [if_pos h4] at h
                    by_cases hb : begins rest1 "rue".toList = true
                    · rw [if_pos hb] at h
                      injection h with h5
                      injection h5 with h6 h7
                      subst h6
                      simp [wfVal]
                    · rw [if_neg hb] at h; simp at h
                  · rw [if_neg h4] at h
                    by_cases h5 : c = 'f'
                    · rw [if_pos h5] at h
                      by_cases hb : begins rest1 "alse".toList = true
                      · rw [if_pos hb] at h
                        injection h with h6
                        injection h6 with h7 h8
                        subst h7
                        simp [wfVal]
                      · rw [if_neg hb] at h; simp at h
                    · rw [if_neg h5] at h
                      by_cases h6 : c = 'n'
                      · rw [if_pos h6] at h
                        by_cases hb : begins rest1 "ull".toList = true
                        · rw [if_pos hb] at h
                          injection h with h7
                          injection h7 with h8 h9
                          subst h8
                          simp [wfVal]
                        · rw [if_neg hb] at h; simp at h
                      · rw [if_neg h6] at h
                        cases hpn : parseNumberToken (c :: rest1) with
                        | none => rw [hpn] at h; simp at h
                        | some pr =>
                            obtain ⟨lit, rest2⟩ := pr
                            rw [hpn] at h
                            dsimp only at h
                            injection h with h7
                            injection h7 with h8 h9
                            subst h8
                            simp only [wfVal]
                            exact parseNumberToken_self hpn
      · intro s v rest h
        rw [parseObjFields.eq_def] at h
        dsimp only at h
        cases hdw : s.dropWhile jsonIsWs with
        | nil => rw [hdw] at h; simp at h
        | cons c rest1 =>
            rw [hdw] at h
            dsimp only at h
            by_cases h1 : c = rbrace
            · rw [if_pos h1] at h
              injection h with h2
              injection h2 with h3 h4
              subst h3
              simp [wfVal, wfObj, keysNodup]
            · rw [if_neg h1] at h
              by_cases h2 : c = '"'
              · rw [if_pos h2] at h
                cases hpl : parseObjLoop fuel (c :: rest1) with
                | none => rw [hpl] at h; simp at h
                | some pr =>
                    obtain ⟨fields, rest2⟩ := pr
                    rw [hpl] at h
                    dsimp only at h
                    injection h with h3
                    injection h3 with h4 h5
                    subst h4
                    have hwff := IHL _ _ _ hpl
                    have hres := objInsertAll_wf fields .nil rfl (by simp [wfObj]) hwff
                    simp only [wfVal, Bool.and_eq_true]
                    exact hres
              · rw [if_neg h2] at h; simp at h
      · intro s fields rest h
        rw [parseObjLoop.eq_def] at h
        dsimp only at h
        split at h
        · rename_i rest1 heq
          cases hsb : parseStringBody rest1 with
          | none => rw [hsb] at h; simp at h
          | some pr =>
              obtain ⟨key, rest2⟩ := pr
              rw [hsb] at h
              dsimp only at h
              split at h
              · rename_i rest3 heq2
                cases hpv : parseValue fuel rest3 with
                | none => rw [hpv] at h; simp at h
                | some pr2 =>
                    obtain ⟨v, rest4⟩ := pr2
                    rw [hpv] at h
                    dsimp only at h
                    cases hdw2 : rest4.dropWhile jsonIsWs with
                    | nil => rw [hdw2] at h; simp at h
                    | cons c2 rest5 =>
                        rw [hdw2] at h
                        dsimp only at h
                        by_cases hc2 : c2 = rbrace
                        · rw [if_pos hc2] at h
                          injection h with h2
                          injection h2 with h3 h4
                          subst h3
                          simp only [wfObj, Bool.and_eq_true]
                          exact ⟨IHV _ _ _ hpv, by simp [wfObj]⟩
                        · rw [if_neg hc2] at h
                          by_cases hc3 : c2 = ','
                          · rw [if_pos hc3] at h
                            cases hpl : parseObjLoop fuel rest5 with
                            | none => rw [hpl] at h; simp at h
                            | some pr3 =>
                                obtain ⟨tl, rest6⟩ := pr3
                                rw [hpl] at h
                                dsimp only at h
                                injection h with h2
                                injection h2 with h3 h4
                                subst h3
                                simp only [wfObj, Bool.and_eq_true]
                                exact ⟨IHV _ _ _ hpv, IHL _ _ _ hpl⟩
                          · rw [if_neg hc3] at h; simp at h
              · simp at h
        · simp at h
      · intro s v rest h
        rw [parseArrElems.eq_def] at h
        dsimp only at h
        cases hdw : s.dropWhile jsonIsWs with
        | nil => rw [hdw] at h; simp at h
        | cons c rest1 =>
            rw [hdw] at h
            dsimp only at h
            by_cases h1 : c = ']'
            · rw [if_pos h1] at h
              injection h with h2
              injection h2 with h3 h4
              subst h3
              simp [wfVal, wfList]
            · rw [if_neg h1] at h
              cases hal : parseArrLoop fuel (c :: rest1) with
              | none => rw [hal] at h; simp at h
              | some pr =>
                  obtain ⟨elems, rest2⟩ := pr
                  rw [hal] at h
                  dsimp only at h
                  injection h with h2
                  injection h2 with h3 h4
                  subst h3
                  simp only [wfVal]
                  exact IHA _ _ _ hal
      · intro s elems rest h
        rw [parseArrLoop.eq_def] at h
        dsimp only at h
        cases hpv : parseValue fuel s with
        | none => rw [hpv] at h; simp at h
        | some pr =>
            obtain ⟨v, rest1⟩ := pr
            rw [hpv] at h
            dsimp only at h
            cases hdw : rest1.dropWhile jsonIsWs with
            | nil => rw [hdw] at h; simp at h
            | cons c rest2 =>
                rw [hdw] at h
                dsimp only at h
                by_cases h1 : c = ']'
                · rw [if_pos h1] at h
                  injection h with h2
                  injection h2 with h3 h4
                  subst h3
                  simp only [wfList, Bool.and_eq_true]
                  exact ⟨IHV _ _ _ hpv, by simp [wfList]⟩
                · rw [if_neg h1] at h
                  by_cases h2 : c = ','
                  · rw [if_pos h2] at h
                    cases hal : parseArrLoop fuel rest2 with
                    | none => rw [hal] at h; simp at h
                    | some pr2 =>
                        obtain ⟨tl, rest3⟩ := pr2
                        rw [hal] at h
                        dsimp only at h
                        injection h with h3
                        injection h3 with h4 h5
                        subst h4
                        simp only [wfList, Bool.and_eq_true]
                        exact ⟨IHV _ _ _ hpv, IHA _ _ _ hal⟩
                  · rw [if_neg h2] at h; simp at h

/-- Every value `json.loads` returns is well-formed. -/
theorem loads_wf {s : Str} {v : Json} (h : loads s = some v) : wfVal v = true := by
  unfold loads at h
  cases hpv : parseValue (2 * s.length + 8) s with
  | none => rw [hpv] at h; simp at h
  | some pr =>
      obtain ⟨v2, rest⟩ := pr
      rw [hpv] at h
      dsimp only at h
      split at h
      · injection h with h2
        subst h2
        exact (parse_wf _).1 _ _ _ hpv
      · simp at h

theorem wf_get : ∀ (fields : JsonObj) (k : Str) (av : Json), wfObj fields = true →
    JsonObj.get k fields = some av → wfVal av = true
  | .nil, k, av, _, h => by simp [JsonObj.get] at h
  | .cons k2 v2 tl, k, av, hwf, h => by
      rw [wfObj, Bool.and_eq_true] at hwf
      rw [JsonObj.get] at h
      by_cases hk : k = k2
      · rw [if_pos hk] at h
        injection h with h2
        exact h2 ▸ hwf.1
      · rw [if_neg hk] at h
        exact wf_get tl k av hwf.2 h

/-- Witness for C9 at the repository test's concrete deltas. -/
theorem c9_streaming_newline_rule_witness :
    extract_reasoning_content_streaming "</think>".toList 1001
        "<think>Reasoning".toList "<think>Reasoning</think>\nFinal".toList
        "</think>\nFinal".toList
        [1000, 200] [1000, 200, 1001, 300, 500] [1001, 300, 500] =
      some ⟨some [], some "\nFinal".toList⟩ := by
  have h := c9_streaming_newline_rule.2.2.1 "Final".toList (by decide)
  simpa using h

-- ### C7: the arguments round-trip

/-- The concrete input of C7's witness: a bare tool-call object with a
mapping-valued "arguments". -/
def wtnC7 : Str :=
  "\x7b\"name\": \"a\", \"arguments\": \x7b\"k\": 1\x7d\x7d".toList

/-- C7: every `ToolCall` the extractor produces carries its arguments as a
string (structurally, `ToolCall.arguments : Str`); the winning candidate
parsed from some source text to a mapping, and if its "arguments" value was
itself a mapping the emitted string is its `json.dumps` serialization, which
`json.loads` reparses to a mapping equal to the original; a string-valued
"arguments" passes through unchanged. -/
theorem c7_arguments_roundtrip (t : Str) (tc : ToolCall)
    (htc : tc ∈ (extract_res t).toolCalls) :
    ∃ (src : Str) (fields : JsonObj) (av : Json),
      loads src = some (Json.obj fields) ∧
      JsonObj.get argumentsKey fields = some av ∧
      ((∃ m, av = Json.obj m ∧ tc.arguments = dumpsVal (Json.obj m) ∧
          loads tc.arguments = some (Json.obj m)) ∨
       (∃ a, av = Json.str a ∧ tc.arguments = a)) := by
  have hres : extract_res t = match candList t with
      | [] => ⟨false, [], some t⟩
      | c :: rest =>
          match sortCands (c :: rest) with
          | e :: _ => ⟨true, e.toolCalls, optOrNone e.content⟩
          | [] => ⟨false, [], some t⟩ := by
    unfold extract_res extract_tool_calls
    rw [candidatesE_ok t]
    cases candList t with
    | nil => rfl
    | cons c rest => cases hs : sortCands (c :: rest) <;> simp [hs]
  rw [hres] at htc
  cases hcl : candList t with
  | nil => rw [hcl] at htc; simp at htc
  | cons c rest =>
      rw [hcl] at htc
      dsimp only at htc
      cases hs : sortCands (c :: rest) with
      | nil => rw [hs] at htc; simp at htc
      | cons e tail =>
          rw [hs] at htc
          dsimp only at htc
          have he : e ∈ candList t := by
            rw [hcl, ← mem_sortCands, hs]
            simp
          obtain ⟨⟨tc2, v, src, htc2, hsrc, hval⟩, _⟩ := candList_inv t e he
          rw [htc2] at htc
          rw [List.mem_singleton] at htc
          subst htc
          have hwfv := loads_wf hsrc
          cases v with
          | obj fields =>
              refine ⟨src, fields, ?_⟩
              rw [validateAndConvert] at hval
              by_cases hkk : (fields.hasKey nameKey && fields.hasKey argumentsKey) = true
              · rw [if_pos hkk] at hval
                cases hgn : fields.get nameKey with
                | none => rw [hgn] at hval; simp at hval
                | some nv =>
                    cases hga : fields.get argumentsKey with
                    | none => rw [hgn, hga] at hval; simp at hval
                    | some av =>
                        rw [hgn, hga] at hval
                        dsimp only at hval
                        cases nv with
                        | str nm =>
                            dsimp only at hval
                            by_cases hstrip : pyStrip nm = []
                            · rw [if_pos hstrip] at hval; simp at hval
                            · rw [if_neg hstrip] at hval
                              have hwfav : wfVal av = true := by
                                simp only [wfVal, Bool.and_eq_true] at hwfv
                                exact wf_get fields argumentsKey av hwfv.2 hga
                              cases av with
                              | obj m =>
                                  injection hval with h1 h2
                                  refine ⟨Json.obj m, hsrc, rfl, Or.inl ⟨m, rfl, ?_, ?_⟩⟩
                                  · rw [← h1]
                                  · rw [← h1]
                                    exact loads_dumps hwfav
                              | str a =>
                                  injection hval with h1 h2
                                  refine ⟨Json.str a, hsrc, rfl, Or.inr ⟨a, rfl, ?_⟩⟩
                                  rw [← h1]
                              | null => simp at hval
                              | bool b => simp at hval
                              | num lit => simp at hval
                              | arr l => simp at hval
                        | null => simp at hval
                        | bool b => simp at hval
                        | num lit => simp at hval
                        | arr l => simp at hval
                        | obj o => simp at hval
              · rw [if_neg hkk] at hval; simp at hval
          | null => simp [validateAndConvert] at hval
          | bool b => simp [validateAndConvert] at hval
          | num lit => simp [validateAndConvert] at hval
          | str s2 => simp [validateAndConvert] at hval
          | arr l => simp [validateAndConvert] at hval

/-- Witness for C7 at a concrete bare tool call with a mapping argument. -/
theorem c7_arguments_roundtrip_witness :
    ((⟨"a".toList, "\x7b\"k\": 1\x7d".toList⟩ : ToolCall) ∈
        (extract_res wtnC7).toolCalls) ∧
    (∃ (src : Str) (fields : JsonObj) (av : Json),
      loads src = some (Json.obj fields) ∧
      JsonObj.get argumentsKey fields = some av ∧
      ((∃ m, av = Json.obj m ∧
          (⟨"a".toList, "\x7b\"k\": 1\x7d".toList⟩ : ToolCall).arguments =
            dumpsVal (Json.obj m) ∧
          loads (⟨"a".toList, "\x7b\"k\": 1\x7d".toList⟩ : ToolCall).arguments =
            some (Json.obj m)) ∨
       (∃ a, av = Json.str a ∧
          (⟨"a".toList, "\x7b\"k\": 1\x7d".toList⟩ : ToolCall).arguments = a))) :=
  ⟨by decide, c7_arguments_roundtrip wtnC7 _ (by decide)⟩

end ToolPlugin
